import Mathlib

/-!
# Geometry, autofit and window-scale option handling (`src/gmpv_mpv_options.c`)

A shallow embedding of the option parsers of `gmpv_mpv_options.c` and the
properties of them that the specification states.

Conventions of the embedding.

* A C string is the list of its characters (one list element per `gchar`)
  before the terminating NUL.  A `const gchar *` cursor into a string is the
  suffix of the list that starts at the cursor; reading `*p` at the end of the
  list reads the NUL.
* `gint` is a 32-bit and `gint64` a 64-bit two's complement integer; values are
  kept in `Int` and every narrowing conversion is written out (`to_gint`).
* `gdouble` is IEEE-754 binary64 with round-to-nearest-even (`GDouble`).
* Out-parameters are returned: a C function `gboolean f(in, out *a, out *b)`
  becomes a function returning the triple `(rc, a, b)`.
-/

set_option maxRecDepth 20000

namespace Gmpv

/-! ## GLib: `g_ascii_strtoll` (gstrfuncs.c) -/

def G_MAXINT64 : Int := 2 ^ 63 - 1

def G_MININT64 : Int := -(2 ^ 63)

def G_MAXUINT64 : Nat := 2 ^ 64 - 1

/-- The `ISSPACE` test of `gstrfuncs.c`. -/
def ISSPACE (c : Char) : Bool :=
  c = ' ' || c = '\x0c' || c = '\n' || c = '\r' || c = '\t' || c = '\x0b'

/-- The `ISALPHA` test of `gstrfuncs.c`: an ASCII letter. -/
def ISALPHA (c : Char) : Bool :=
  (65 ≤ c.toNat && c.toNat ≤ 90) || (97 ≤ c.toNat && c.toNat ≤ 122)

/-- The code of `TOUPPER (c)`. -/
def TOUPPER (c : Char) : Nat :=
  if 97 ≤ c.toNat ∧ c.toNat ≤ 122 then c.toNat - 32 else c.toNat

/-- The value of a character as a digit in the conversion loop of
`g_parse_long_long`, before the comparison with the base; `none` ends the
loop. -/
def digit_value (c : Char) : Option Nat :=
  if 48 ≤ c.toNat ∧ c.toNat ≤ 57 then some (c.toNat - 48)
  else if ISALPHA c then some (TOUPPER c - 65 + 10)
  else none

/-- The conversion loop of `g_parse_long_long`: from the accumulator `ui64`,
the overflow flag and the count of characters already converted, to their
values when the loop ends. -/
def parse_digits (base : Nat) : List Char → Nat → Bool → Nat → Nat × Bool × Nat
  | [], ui64, overflow, k => (ui64, overflow, k)
  | c :: s, ui64, overflow, k =>
    match digit_value c with
    | none => (ui64, overflow, k)
    | some v =>
      if base ≤ v then (ui64, overflow, k)
      else if G_MAXUINT64 / base < ui64 ∨ (ui64 = G_MAXUINT64 / base ∧ G_MAXUINT64 % base < v) then
        parse_digits base s ui64 true (k + 1)
      else parse_digits base s (ui64 * base + v) overflow (k + 1)

/-- Result of `g_parse_long_long`: the magnitude, the `negative` flag and the
offset of `*endptr` from `nptr`. -/
structure ParsedLong where
  ui64 : Nat
  negative : Bool
  end_off : Nat
  deriving DecidableEq, Repr

/-- The test `(base == 0 || base == 16) && TOUPPER (s[1]) == 'X'` made when
`*s == '0'`, at the cursor `s` after the white space and the sign. -/
def has_hex_prefix (s : List Char) (base : Nat) : Bool :=
  decide (s.head? = some '0' ∧ (base = 0 ∨ base = 16) ∧ (s.drop 1).head?.map TOUPPER = some 88)

/-- The base after the number prefix is recognised. -/
def effective_base (s : List Char) (base : Nat) : Nat :=
  if s.head? = some '0' then
    (if has_hex_prefix s base then 16 else if base = 0 then 8 else base)
  else if base = 0 then 10 else base

/-- The end of `g_parse_long_long` after the conversion loop returned `r`:
`save` is the offset at which the loop started; with no character converted
(`noconv`) the end pointer is `nptr`, or the `x` of a hexadecimal prefix. -/
def parse_long_finish (negative hex : Bool) (save : Nat) (r : Nat × Bool × Nat) : ParsedLong :=
  if r.2.2 = 0 then
    (if hex then ⟨0, negative, save - 1⟩ else ⟨0, negative, 0⟩)
  else if r.2.1 then ⟨G_MAXUINT64, negative, save + r.2.2⟩
  else ⟨r.1, negative, save + r.2.2⟩

/-- The function `g_parse_long_long (nptr, endptr, base, negative)`. -/
def g_parse_long_long (nptr : List Char) (base : Nat) : ParsedLong :=
  if base = 1 ∨ 36 < base then ⟨0, false, 0⟩
  else
    let ws := (nptr.takeWhile ISSPACE).length
    match nptr.drop ws with
    | [] => ⟨0, false, 0⟩
    | c :: s =>
      let sign := if c = '-' ∨ c = '+' then 1 else 0
      let s1 := (c :: s).drop sign
      let hex := has_hex_prefix s1 base
      let skip := if hex then 2 else 0
      parse_long_finish (decide (c = '-')) hex (ws + sign + skip)
        (parse_digits (effective_base s1 base) (s1.drop skip) 0 false 0)

/-- The function `g_ascii_strtoll (nptr, endptr, base)`: the value returned and
the offset of `*endptr` from `nptr`. -/
def g_ascii_strtoll (nptr : List Char) (base : Nat) : Int × Nat :=
  let r := g_parse_long_long nptr base
  if r.negative ∧ 2 ^ 63 < r.ui64 then (G_MININT64, r.end_off)
  else if ¬ r.negative ∧ 2 ^ 63 - 1 < r.ui64 then (G_MAXINT64, r.end_off)
  else if r.negative then (-(r.ui64 : Int), r.end_off)
  else ((r.ui64 : Int), r.end_off)

example : g_ascii_strtoll "-5".toList 0 = (-5, 2) := by decide
example : g_ascii_strtoll "0X1f%".toList 0 = (31, 4) := by decide
example : g_ascii_strtoll " +x".toList 10 = (0, 0) := by decide
example : g_ascii_strtoll "-9223372036854775808".toList 10 = (G_MININT64, 20) := by decide

/-! ## `gdouble`: IEEE-754 binary64, round to nearest, ties to even -/

/-- A `gdouble`.  `finite m e` is the number `m * 2 ^ e`; the values the
operations below produce have `|m| < 2 ^ 53` and `-1074 ≤ e ≤ 971`, with
`2 ^ 52 ≤ |m|` unless `e = -1074` (subnormal) or `m = 0`.  The sign of a zero
is not kept: the program never divides by a computed zero and never inspects a
sign bit, so `+0` and `-0` behave alike in it. -/
inductive GDouble where
  | finite (m : Int) (e : Int)
  | inf (negative : Bool)
  | nan
  deriving DecidableEq, Repr

/-- Bit-length loop: `log2_loop fuel n` is `⌊log2 n⌋` when `n < 2 ^ fuel`. -/
def log2_loop : Nat → Nat → Nat
  | 0, _ => 0
  | fuel + 1, n => if n < 2 then 0 else log2_loop fuel (n / 2) + 1

/-- The integer `⌊log2 n⌋` (`0` for `n = 0`). -/
def ilog2 (n : Nat) : Nat := log2_loop n n

/-- The integer `⌊log2 (n / d)⌋` for positive `n` and `d`. -/
def ratio_exponent (n d : Nat) : Int :=
  let l : Int := (ilog2 n : Int) - (ilog2 d : Int)
  if 0 ≤ l then (if d * 2 ^ l.toNat ≤ n then l else l - 1)
  else (if d ≤ n * 2 ^ (-l).toNat then l else l - 1)

/-- The integer nearest to `n / d`, a tie going to the even one. -/
def round_half_even (n d : Nat) : Nat :=
  let q := n / d
  let r := n % d
  if 2 * r < d then q else if d < 2 * r then q + 1 else if q % 2 = 0 then q else q + 1

/-- The exponent of the last mantissa bit of the binary64 value nearest to
`n / d`: 53 significant bits, and not below `-1074`. -/
def round_exponent (n d : Nat) : Int := max (ratio_exponent n d - 52) (-1074)

/-- The integer nearest to `(n / d) / 2 ^ e`, a tie going to the even one. -/
def round_mantissa (n d : Nat) (e : Int) : Nat :=
  if 0 ≤ e then round_half_even n (d * 2 ^ e.toNat)
  else round_half_even (n * 2 ^ (-e).toNat) d

/-- The value `± m * 2 ^ e` for a rounded mantissa `m ≤ 2 ^ 53`: a mantissa
that rounded up to `2 ^ 53` moves to the next exponent, and an exponent above
`971` overflows to infinity. -/
def GDouble.pack (negative : Bool) (m : Nat) (e : Int) : GDouble :=
  let e1 : Int := if m = 2 ^ 53 then e + 1 else e
  let m1 : Nat := if m = 2 ^ 53 then 2 ^ 52 else m
  if 971 < e1 then .inf negative
  else .finite (if negative then -(m1 : Int) else (m1 : Int)) e1

/-- The binary64 value nearest to `± n / d` (`d > 0`), ties to even. -/
def GDouble.round (negative : Bool) (n d : Nat) : GDouble :=
  if n = 0 then .finite 0 0
  else GDouble.pack negative (round_mantissa n d (round_exponent n d)) (round_exponent n d)

/-- The conversion `(gdouble) i` of an integer. -/
def GDouble.of_int (i : Int) : GDouble :=
  GDouble.round (decide (i < 0)) i.natAbs 1

/-- The quotient `a / b` of two `gdouble`. -/
def GDouble.div (a b : GDouble) : GDouble :=
  match a, b with
  | .nan, _ => .nan
  | _, .nan => .nan
  | .inf _, .inf _ => .nan
  | .inf s, .finite m _ => .inf (xor s (decide (m < 0)))
  | .finite _ _, .inf _ => .finite 0 0
  | .finite m1 e1, .finite m2 e2 =>
    if m2 = 0 then (if m1 = 0 then .nan else .inf (decide (m1 < 0)))
    else
      GDouble.round (xor (decide (m1 < 0)) (decide (m2 < 0)))
        (m1.natAbs * 2 ^ (e1 - e2).toNat) (m2.natAbs * 2 ^ (e2 - e1).toNat)

/-- The product `a * b` of two `gdouble`. -/
def GDouble.mul (a b : GDouble) : GDouble :=
  match a, b with
  | .nan, _ => .nan
  | _, .nan => .nan
  | .inf s, .inf t => .inf (xor s t)
  | .inf s, .finite m _ => if m = 0 then .nan else .inf (xor s (decide (m < 0)))
  | .finite m _, .inf t => if m = 0 then .nan else .inf (xor (decide (m < 0)) t)
  | .finite m1 e1, .finite m2 e2 =>
    GDouble.round (xor (decide (m1 < 0)) (decide (m2 < 0)))
      ((m1 * m2).natAbs * 2 ^ (e1 + e2).toNat) (2 ^ (-(e1 + e2)).toNat)

/-- The comparison `a < b` of two `gdouble` (false when either is a NaN). -/
def GDouble.lt (a b : GDouble) : Bool :=
  match a, b with
  | .nan, _ => false
  | _, .nan => false
  | .inf s, .inf t => s && !t
  | .inf s, .finite _ _ => s
  | .finite _ _, .inf t => !t
  | .finite m1 e1, .finite m2 e2 =>
    decide (m1 * 2 ^ (e1 - e2).toNat < m2 * 2 ^ (e2 - e1).toNat)

/-- The comparison `a == b` of two `gdouble` (false when either is a NaN). -/
def GDouble.eq (a b : GDouble) : Bool :=
  match a, b with
  | .nan, _ => false
  | _, .nan => false
  | .inf s, .inf t => s == t
  | .inf _, .finite _ _ => false
  | .finite _ _, .inf _ => false
  | .finite m1 e1, .finite m2 e2 =>
    decide (m1 * 2 ^ (e1 - e2).toNat = m2 * 2 ^ (e2 - e1).toNat)

/-- The integer part of a finite value, rounded toward zero. -/
def GDouble.trunc (m e : Int) : Int :=
  if 0 ≤ e then m * 2 ^ e.toNat else Int.tdiv m (2 ^ (-e).toNat)

/-- The conversion `(gint) d`.  A value whose integer part is not a `gint`
(and an infinity or a NaN) has no defined conversion in C; the `cvttsd2si`
instruction the conversion compiles to on x86-64 gives `INT_MIN` there. -/
def GDouble.to_gint : GDouble → Int
  | .finite m e =>
    let t := GDouble.trunc m e
    if -(2 ^ 31) ≤ t ∧ t < 2 ^ 31 then t else -(2 ^ 31)
  | _ => -(2 ^ 31)

/-- The conversion `(gint64) d`; out of range as for `to_gint`, with
`INT64_MIN`. -/
def GDouble.to_gint64 : GDouble → Int
  | .finite m e =>
    let t := GDouble.trunc m e
    if -(2 ^ 63) ≤ t ∧ t < 2 ^ 63 then t else -(2 ^ 63)
  | _ => -(2 ^ 63)

example : GDouble.to_gint64 (GDouble.mul (GDouble.div (.of_int 1920) (.of_int 854)) (.of_int 854)) = 1919 := by
  decide
example : GDouble.of_int (2^63 - 1) = .finite (2^52) 11 := by decide

/-! ## GLib: `g_ascii_strtod`, the `strtod` of the C locale -/

/-- A run of digits in `base` at the head of a string: the number the run
extends the accumulator to, the length of the run, and what follows it. -/
def digit_run (base : Nat) : List Char → Nat → Nat → Nat × Nat × List Char
  | [], acc, k => (acc, k, [])
  | c :: s, acc, k =>
    match digit_value c with
    | none => (acc, k, c :: s)
    | some v => if v < base then digit_run base s (acc * base + v) (k + 1) else (acc, k, c :: s)

/-- The string starts with the word `w` (given in upper case), letter case
ignored. -/
def starts_with_word (s : List Char) (w : List Nat) : Bool :=
  (s.take w.length).map TOUPPER == w && w.length ≤ s.length

/-- The exponent part of a number: the marker (`e` or `p`, either case), an
optional sign and a run of decimal digits; `0` when the part is absent or has
no digit. -/
def exponent_part (marker : Nat) (s : List Char) : Int :=
  match s with
  | [] => 0
  | c :: t =>
    if TOUPPER c = marker then
      let signed := decide (t.head? = some '-' ∨ t.head? = some '+')
      let r := digit_run 10 (if signed then t.drop 1 else t) 0 0
      if r.2.1 = 0 then 0
      else if t.head? = some '-' then -(r.1 : Int) else (r.1 : Int)
    else 0

/-- The `gdouble` nearest to `± M * b ^ e`. -/
def scale_round (negative : Bool) (M b : Nat) (e : Int) : GDouble :=
  if 0 ≤ e then GDouble.round negative (M * b ^ e.toNat) 1
  else GDouble.round negative M (b ^ (-e).toNat)

/-- The digits of a number in `base`, with an optional `.` among them, and its
exponent part: the value `M * b ^ e` it stands for as `(M, e)` with `b` the
base of the exponent (`10`, or `2` for a hexadecimal number, whose fraction
digits count four bits each); `none` when there is no digit. -/
def number_body (base : Nat) (s : List Char) : Option (Nat × Int) :=
  let i := digit_run base s 0 0
  let f := if i.2.2.head? = some '.' then digit_run base (i.2.2.drop 1) i.1 0 else (i.1, 0, i.2.2)
  if i.2.1 + f.2.1 = 0 then none
  else if base = 16 then some (f.1, exponent_part 80 f.2.2 - 4 * (f.2.1 : Int))
  else some (f.1, exponent_part 69 f.2.2 - (f.2.1 : Int))

/-- The value `g_ascii_strtod (nptr, NULL)` returns: white space, an optional
sign, then `inf`, `nan`, a hexadecimal number after `0x`, or a decimal number,
correctly rounded; `0` when there is no number. -/
def g_ascii_strtod (nptr : List Char) : GDouble :=
  let s := nptr.dropWhile ISSPACE
  let negative := decide (s.head? = some '-')
  let s1 := if s.head? = some '-' ∨ s.head? = some '+' then s.drop 1 else s
  if starts_with_word s1 [73, 78, 70] then GDouble.inf negative
  else if starts_with_word s1 [78, 65, 78] then GDouble.nan
  else
    let hex := if starts_with_word s1 [48, 88] then number_body 16 (s1.drop 2) else none
    match hex with
    | some (M, e) => scale_round negative M 2 e
    | none =>
      match number_body 10 s1 with
      | some (M, e) => scale_round negative M 10 e
      | none => GDouble.finite 0 0

/-! ## The host: screen and property store -/

/-- What the parsers read from the machine they run on. -/
structure Host where
  /-- The value `gdk_screen_get_width` returns, a `gint`. -/
  screen_width : Int
  /-- The value `gdk_screen_get_height` returns, a `gint`. -/
  screen_height : Int
  /-- The byte stored just in front of a token that `g_strsplit` allocated.
  The test `tokens[i][strnlen(tokens[i], 256)-1] == '%'` reads it when the
  token is empty (`strnlen` is `0` and the `size_t` index wraps to `-1`). -/
  stray : Char
  deriving DecidableEq, Repr

/-- The properties of the mpv context that the option handlers read.  A string
property is `none` when `mpv_get_property_string` returns `NULL`; `dwidth` and
`dheight` are `none` when `mpv_get_property` returns an error code (negative)
and leaves its output untouched, `some v` when it returns `0` and stores `v`. -/
structure GmpvMpv where
  new_file : Bool
  geometry : Option (List Char)
  window_scale : Option (List Char)
  autofit : Option (List Char)
  autofit_larger : Option (List Char)
  autofit_smaller : Option (List Char)
  dwidth : Option Int
  dheight : Option Int
  deriving DecidableEq, Repr

/-- A `GValue`: `unset` is `G_VALUE_INIT`, the other two are a value
initialised with `g_value_init` to `G_TYPE_INT64` or `G_TYPE_DOUBLE`. -/
inductive GValue where
  | unset
  | int64 (v : Int)
  | double (d : GDouble)
  deriving DecidableEq, Repr

/-- The test `G_IS_VALUE (&v)`. -/
def G_IS_VALUE : GValue → Bool
  | .unset => false
  | _ => true

/-- A signal emitted with `g_signal_emit_by_name`. -/
inductive Signal where
  | window_move (flip_x flip_y : Bool) (x y : GValue)
  | window_resize (width height : Int)
  deriving DecidableEq, Repr

/-! ## The parsers -/

/-- The function `parse_geom_token (iter, value)`: returns `rc`, the new
`*iter` and the new `*value`.  `g_ascii_strtoll` always stores `end`, so the
`if(end)` branch is always taken. -/
def parse_geom_token (iter : List Char) : Bool × List Char × GValue :=
  let r := g_ascii_strtoll iter 10
  let token_value := r.1
  let off := r.2
  match iter.drop off with
  | '%' :: rest =>
    (decide (off + 1 ≠ 0), rest,
      GValue.double (GDouble.div (GDouble.of_int token_value) (GDouble.of_int 100)))
  | rest => (decide (off ≠ 0), rest, GValue.int64 token_value)

/-- The test of the loop of `parse_pos_token_prefix`. -/
def is_sign (c : Char) : Bool := c = '+' || c = '-'

/-- The function `parse_pos_token_prefix (iter, prefix)`: returns `rc`, the new
`*iter` and the string stored in `*prefix` (`none` when nothing is stored). -/
def parse_pos_token_prefix (iter : List Char) : Bool × List Char × Option (List Char) :=
  let n := (iter.takeWhile is_sign).length
  if n ≤ 2 then
    let n1 := if n = 2 then n - 1 else n
    (true, iter.drop n1, some (iter.take n1))
  else (false, iter, none)

/-- The function `parse_pos_token (iter, value, flip)`: returns `rc`, the new
`*iter`, the new `*value` and the value stored in `*flip`. -/
def parse_pos_token (iter : List Char) (value : GValue) : Bool × List Char × GValue × Bool :=
  let p := parse_pos_token_prefix iter
  let t := if p.1 then parse_geom_token p.2.1 else (false, p.2.1, value)
  let flip :=
    match p.2.2 with
    | some pfx => decide (pfx.head? = some '-')
    | none => false
  (t.1, t.2.1, t.2.2, flip)

/-- The function `parse_pos_string (geom_str, flip, pos)`: returns `rc` and the
new contents of `flip[2]` and `pos[2]`. -/
def parse_pos_string (geom_str : List Char) (flip : Bool × Bool) (pos : GValue × GValue) :
    Bool × (Bool × Bool) × (GValue × GValue) :=
  let a := parse_pos_token geom_str pos.1
  if a.1 then
    let b := parse_pos_token a.2.1 pos.2
    (b.1, (a.2.2.2, b.2.2.2), (a.2.2.1, b.2.2.1))
  else (false, (a.2.2.2, flip.2), (a.2.2.1, pos.2))

/-- The call `strstr (s, "x")`: the suffix of `s` that starts at the first
`x`, or `none` (the `NULL` pointer) when there is none. -/
def strstr_x (s : List Char) : Option (List Char) :=
  match s.dropWhile (fun c => c != 'x') with
  | [] => none
  | r => some r

/-- The loop of `g_strsplit (string, "x", max_tokens)` and the final token:
at most `n` splits, the remainder of the string is the last token. -/
def strsplit_loop : Nat → List Char → List (List Char)
  | 0, remainder => [remainder]
  | n + 1, remainder =>
    match strstr_x remainder with
    | none => [remainder]
    | some s => remainder.take (remainder.length - s.length) :: strsplit_loop n (s.drop 1)

/-- The call `g_strsplit (string, "x", max_tokens)` for `max_tokens ≥ 1`: the
empty string gives no token. -/
def g_strsplit_x (string : List Char) (max_tokens : Nat) : List (List Char) :=
  if string = [] then [] else strsplit_loop (max_tokens - 1) string

/-- The function `strnlen (s, maxlen)`. -/
def strnlen (s : List Char) (maxlen : Nat) : Nat := min s.length maxlen

/-- The read `tok[i]` for an index `i ≤ strlen (tok)`, and for `i = -1` the
byte in front of the token. -/
def char_at (stray : Char) (tok : List Char) (i : Int) : Char :=
  if i < 0 then stray else tok.getD i.toNat '\x00'

/-- The conversion `(gint) v` of a `gint64`. -/
def to_gint (v : Int) : Int := (v + 2 ^ 31) % 2 ^ 32 - 2 ^ 31

/-- Element `i` of a two-element array. -/
def get2 {α : Type} (a : α × α) (i : Nat) : α := if i = 0 then a.1 else a.2

/-- The array with element `i` replaced. -/
def set2 {α : Type} (a : α × α) (i : Nat) (v : α) : α × α := if i = 0 then (v, a.2) else (a.1, v)

/-- The locals `multiplier[2]` and the output `dim[2]` of `parse_dim_string`. -/
structure DimState where
  multiplier : GDouble × GDouble
  dim : Int × Int
  deriving DecidableEq, Repr

/-- The body of the loop of `parse_dim_string` for the token `tokens[i]`. -/
def dim_body (host : Host) (i : Nat) (tok : List Char) (st : DimState) : DimState :=
  let value := to_gint (g_ascii_strtoll tok 0).1
  if (i = 0 ∧ 0 < value) ∨ i = 1 then
    let multiplier :=
      if char_at host.stray tok ((strnlen tok 256 : Int) - 1) = '%' then
        set2 st.multiplier i (GDouble.div (GDouble.of_int value) (GDouble.of_int 100))
      else if i = 1 ∧ ¬ GDouble.eq (get2 st.multiplier 0) (GDouble.of_int (-1)) then
        set2 st.multiplier i (get2 st.multiplier 0)
      else st.multiplier
    if GDouble.eq (get2 multiplier i) (GDouble.of_int (-1)) then
      ⟨multiplier, set2 st.dim i value⟩
    else
      ⟨multiplier, set2 st.dim i (GDouble.to_gint
        (GDouble.mul (get2 multiplier i) (GDouble.of_int (get2 (host.screen_width, host.screen_height) i))))⟩
  else st

/-- The loop `while(tokens && tokens[++i] && i < 3)` of `parse_dim_string`,
entered with the tokens from index `i` on. -/
def dim_loop (host : Host) : Nat → List (List Char) → DimState → DimState
  | _, [], st => st
  | i, tok :: rest, st => if i < 3 then dim_loop host (i + 1) rest (dim_body host i tok st) else st

/-- The function `parse_dim_string (geom_str, dim)`: returns `rc` and the new
contents of `dim[2]`. -/
def parse_dim_string (host : Host) (geom_str : List Char) : Bool × (Int × Int) :=
  let st := dim_loop host 0 (g_strsplit_x geom_str 2)
    ⟨(GDouble.of_int (-1), GDouble.of_int (-1)), (-1, -1)⟩
  (decide (0 < st.dim.1 ∧ 0 < st.dim.2), st.dim)

/-- The function `parse_geom_string (mpv, geom_str, flip, pos, dim)`: returns
the new contents of `flip[2]`, `pos[2]` and `dim[2]`. -/
def parse_geom_string (host : Host) (geom_str : Option (List Char)) (flip : Bool × Bool)
    (pos : GValue × GValue) (dim : Int × Int) : (Bool × Bool) × (GValue × GValue) × (Int × Int) :=
  match geom_str with
  | none => (flip, pos, dim)
  | some s =>
    let dim1 :=
      if s.head? ≠ some '+' ∧ s.head? ≠ some '-' then (parse_dim_string host s).2 else dim
    let rest := s.dropWhile (fun c => c != '+' && c != '-')
    let r := parse_pos_string rest flip pos
    (r.2.1, r.2.2, dim1)

/-- The function `get_video_dimensions (mpv, dim)`: returns `rc >= 0` and the
new contents of `dim[2]`. -/
def get_video_dimensions (mpv : GmpvMpv) (dim : Int × Int) : Bool × (Int × Int) :=
  (mpv.dwidth.isSome && mpv.dheight.isSome, (mpv.dwidth.getD dim.1, mpv.dheight.getD dim.2))

/-- The macro `CLAMP (x, low, high)` of GLib. -/
def CLAMP (x low high : Int) : Int := if high < x then high else if x < low then low else x

/-- The macro `MIN (a, b)` of GLib on `gdouble`. -/
def MIN (a b : GDouble) : GDouble := if GDouble.lt a b then a else b

/-- The test `str && *str` of a string property. -/
def is_set : Option (List Char) → Bool
  | some (_ :: _) => true
  | _ => false

/-- The function `handle_autofit (mpv, dim)`: returns the new contents of
`dim[2]`. -/
def handle_autofit (host : Host) (mpv : GmpvMpv) (dim : Int × Int) : Int × Int :=
  let autofit_set := is_set mpv.autofit
  let larger_set := is_set mpv.autofit_larger
  let smaller_set := is_set mpv.autofit_smaller
  let autofit_dim : Int × Int :=
    if autofit_set then (parse_dim_string host (mpv.autofit.getD [])).2 else (0, 0)
  let larger_dim : Int × Int :=
    if larger_set then (parse_dim_string host (mpv.autofit_larger.getD [])).2
    else (G_MAXINT64, G_MAXINT64)
  let smaller_dim : Int × Int :=
    if smaller_set then (parse_dim_string host (mpv.autofit_smaller.getD [])).2 else (0, 0)
  let v := get_video_dimensions mpv (0, 0)
  if (autofit_set || larger_set || smaller_set) && v.1 then
    let vid_dim := v.2
    let dim0 := CLAMP autofit_dim.1 smaller_dim.1 larger_dim.1
    let dim1 := CLAMP autofit_dim.2 smaller_dim.2 larger_dim.2
    let ratio := MIN (GDouble.div (GDouble.of_int dim0) (GDouble.of_int vid_dim.1))
      (GDouble.div (GDouble.of_int dim1) (GDouble.of_int vid_dim.2))
    (GDouble.to_gint64 (GDouble.mul ratio (GDouble.of_int vid_dim.1)),
      GDouble.to_gint64 (GDouble.mul ratio (GDouble.of_int vid_dim.2)))
  else dim

/-- The function `handle_geometry (mpv)`: the signals it emits, in order. -/
def handle_geometry (host : Host) (mpv : GmpvMpv) : List Signal :=
  match mpv.geometry with
  | none => []
  | some geometry_str =>
    let r := parse_geom_string host (some geometry_str) (false, false)
      (GValue.unset, GValue.unset) (0, 0)
    let flip := r.1
    let pos := r.2.1
    let dim := r.2.2
    (if G_IS_VALUE pos.1 && G_IS_VALUE pos.2 then
      [Signal.window_move flip.1 flip.2 pos.1 pos.2] else []) ++
    (if 0 < dim.1 ∧ 0 < dim.2 then [Signal.window_resize dim.1 dim.2] else [])

/-- The function `handle_window_scale (mpv, dim)`: returns the new contents of
`dim[2]`.  The return value of `get_video_dimensions` is not looked at: an
extent that cannot be read stays at the `0` of `vid_dim`. -/
def handle_window_scale (mpv : GmpvMpv) (dim : Int × Int) : Int × Int :=
  let vid_dim := (get_video_dimensions mpv (0, 0)).2
  if is_set mpv.window_scale then
    let scale := g_ascii_strtod (mpv.window_scale.getD [])
    (GDouble.to_gint64 (GDouble.mul scale (GDouble.of_int vid_dim.1)),
      GDouble.to_gint64 (GDouble.mul scale (GDouble.of_int vid_dim.2)))
  else dim

/-- The function `video_reconfig_handler (mpv, data)`: the signals it emits. -/
def video_reconfig_handler (host : Host) (mpv : GmpvMpv) : List Signal :=
  if mpv.new_file then
    let dim := handle_autofit host mpv (handle_window_scale mpv (0, 0))
    if 0 < dim.1 ∧ 0 < dim.2 then [Signal.window_resize dim.1 dim.2] else []
  else []

/-- The index `strnlen(tokens[i], 256)-1` at which the loop body of
`parse_dim_string` reads the token `tokens[i]` to test for `%`, when it gets
to the test; the `size_t` value `0 - 1` addresses the byte at `-1`. -/
def dim_body_index (i : Nat) (tok : List Char) : Option Int :=
  let value := to_gint (g_ascii_strtoll tok 0).1
  if (i = 0 ∧ 0 < value) ∨ i = 1 then some ((strnlen tok 256 : Int) - 1) else none

/-- The reads `tokens[i][strnlen(tokens[i], 256)-1]` of the loop of
`parse_dim_string`, in order: the token and the index read. -/
def dim_loop_reads : Nat → List (List Char) → List (List Char × Int)
  | _, [] => []
  | i, tok :: rest =>
    if i < 3 then
      (match dim_body_index i tok with
        | some k => [(tok, k)]
        | none => []) ++ dim_loop_reads (i + 1) rest
    else []

/-- The reads of `parse_dim_string (geom_str, dim)` that test for `%`. -/
def parse_dim_string_reads (geom_str : List Char) : List (List Char × Int) :=
  dim_loop_reads 0 (g_strsplit_x geom_str 2)

/-! ## Terms of the specification -/

/-- The decimal literal of a natural number: the characters of `toString n`. -/
def decimal (n : Nat) : List Char := Nat.toDigits 10 n

/-- A character is one of `0` .. `9`. -/
def is_digit (c : Char) : Prop := 48 ≤ c.toNat ∧ c.toNat ≤ 57

/-- How the conversion loop reads a digit string `ds` of value `n`. -/
def Reads (ds : List Char) (n : Nat) : Prop :=
  ∀ (acc k : Nat) (rest : List Char), acc * 10 ^ ds.length + n ≤ G_MAXUINT64 →
    parse_digits 10 (ds ++ rest) acc false k
      = parse_digits 10 rest (acc * 10 ^ ds.length + n) false (k + ds.length)

/-- What is known of the decimal literal `ds` of `n`. -/
structure Numeral (ds : List Char) (n : Nat) : Prop where
  digits : ∀ c ∈ ds, is_digit c
  first : ∃ c, ds.head? = some c ∧ (0 < n → 49 ≤ c.toNat)
  short : 10 ^ ds.length ≤ 10 * n ∨ (n = 0 ∧ ds.length = 1)
  reads : Reads ds n

/-- The value `g` is finite, not negative, and stands for the rational number
`v`. -/
def GDouble.Val (g : GDouble) (v : ℚ) : Prop :=
  ∃ (m : Nat) (e : Int), g = .finite (m : Int) e ∧ (m : ℚ) * (2 : ℚ) ^ e = v

/-- The pixel count `(gint)((value/100.0)*screen)` that `parse_dim_string`
stores for a token `value%`. -/
def percent_of (value screen : Int) : Int :=
  GDouble.to_gint (GDouble.mul (GDouble.div (GDouble.of_int value) (GDouble.of_int 100))
    (GDouble.of_int screen))

/-- The dimensions an autofit directive stands for: what `parse_dim_string`
leaves in its output when the directive is set, the default when it is not. -/
def directive_dim (host : Host) (directive : Option (List Char)) (default : Int × Int) :
    Int × Int :=
  if is_set directive then (parse_dim_string host (directive.getD [])).2 else default

/-- The conversion loop stops at the head of `rest`. -/
def Stops (rest : List Char) : Prop :=
  ∀ c, rest.head? = some c → ∀ v, digit_value c = some v → 10 ≤ v

/-- A screen of 1920x1080 with a NUL in front of every token. -/
def host0 : Host := ⟨1920, 1080, '\x00'⟩

/-- A context with every option unset and a video of 640x480. -/
def mpv0 : GmpvMpv := ⟨true, none, none, none, none, none, some 640, some 480⟩

/-- The index of a read is within the token: `0 ≤ k < strlen (tok)`. -/
def in_bounds (r : List Char × Int) : Bool := decide (0 ≤ r.2 ∧ r.2 < (r.1.length : Int))

/-- The number of decimal digits at the cursor, after optional white space and
an optional sign: the digits a decimal conversion consumes. -/
def digits_consumed (iter : List Char) : Nat :=
  let s := iter.dropWhile ISSPACE
  (digit_run 10 (if s.head? = some '-' ∨ s.head? = some '+' then s.drop 1 else s) 0 0).2.1

/-- The length of the leading run of `+` and `-` characters. -/
def sign_run (iter : List Char) : Nat := (iter.takeWhile is_sign).length

/-! ## Decimal literals and `g_ascii_strtoll` -/

theorem digitChar_toNat (d : Nat) (h : d < 10) : (Nat.digitChar d).toNat = 48 + d := by
  interval_cases d <;> rfl

theorem digit_value_of_is_digit (c : Char) (h : is_digit c) :
    digit_value c = some (c.toNat - 48) := by
  exact if_pos h

theorem parse_digits_step (c : Char) (hc : is_digit c) (s : List Char) (acc k : Nat)
    (h : acc * 10 + (c.toNat - 48) ≤ G_MAXUINT64) :
    parse_digits 10 (c :: s) acc false k = parse_digits 10 s (acc * 10 + (c.toNat - 48)) false (k + 1) := by
  have hv : c.toNat - 48 < 10 := by
    have := hc.1; have := hc.2; omega
  rw [parse_digits, digit_value_of_is_digit c hc]
  simp only
  rw [if_neg (by omega)]
  have hmax : G_MAXUINT64 = 18446744073709551615 := by decide
  rw [hmax] at h ⊢
  rw [if_neg]
  omega

theorem parse_digits_stop (base : Nat) (rest : List Char) (acc k : Nat) (ov : Bool)
    (h : ∀ c, rest.head? = some c → ∀ v, digit_value c = some v → base ≤ v) :
    parse_digits base rest acc ov k = (acc, ov, k) := by
  cases rest with
  | nil => rfl
  | cons c s =>
    rw [parse_digits]
    cases hv : digit_value c with
    | none => rfl
    | some v => simp only; rw [if_pos (h c rfl v hv)]

theorem numeral_one (n : Nat) (h : n < 10) : Numeral [Nat.digitChar n] n := by
  have ht := digitChar_toNat n h
  refine ⟨?_, ⟨Nat.digitChar n, rfl, ?_⟩, ?_, ?_⟩
  · intro c hc
    rw [List.mem_singleton] at hc
    subst hc
    unfold is_digit
    omega
  · intro hpos; omega
  · rcases Nat.eq_zero_or_pos n with h0 | h0
    · exact Or.inr ⟨h0, rfl⟩
    · left; simp only [List.length_singleton, pow_one]; omega
  · intro acc k rest hle
    simp only [List.length_singleton, pow_one] at hle ⊢
    have hd : is_digit (Nat.digitChar n) := by unfold is_digit; omega
    have := parse_digits_step (Nat.digitChar n) hd rest acc k (by omega)
    simp only [List.singleton_append]
    rw [this, ht]
    congr 1
    omega

theorem numeral_snoc (ds : List Char) (n : Nat) (hn : 0 < n / 10) (h : Numeral ds (n / 10)) :
    Numeral (ds ++ [Nat.digitChar (n % 10)]) n := by
  have hlt : n % 10 < 10 := Nat.mod_lt _ (by decide)
  have ht := digitChar_toNat (n % 10) hlt
  have hd : is_digit (Nat.digitChar (n % 10)) := by unfold is_digit; omega
  obtain ⟨c, hc, hc1⟩ := h.first
  refine ⟨?_, ⟨c, ?_, fun _ => hc1 hn⟩, ?_, ?_⟩
  · intro x hx
    rw [List.mem_append, List.mem_singleton] at hx
    rcases hx with hx | hx
    · exact h.digits x hx
    · subst hx; exact hd
  · cases ds with
    | nil => simp at hc
    | cons a t => simpa using hc
  · left
    rcases h.short with hs | ⟨h0, _⟩
    · simp only [List.length_append, List.length_singleton, pow_succ]
      omega
    · omega
  · intro acc k rest hle
    simp only [List.length_append, List.length_singleton, pow_succ] at hle ⊢
    have e1 : acc * (10 ^ ds.length * 10) = (acc * 10 ^ ds.length) * 10 := by ring
    rw [e1] at hle ⊢
    have h1 := h.reads acc k (Nat.digitChar (n % 10) :: rest) (by omega)
    have h2 := parse_digits_step (Nat.digitChar (n % 10)) hd rest (acc * 10 ^ ds.length + n / 10)
      (k + ds.length) (by rw [ht]; omega)
    rw [List.append_assoc, List.singleton_append, h1, h2, ht]
    congr 1
    omega

theorem toDigitsCore_numeral (fuel : Nat) : ∀ (n : Nat) (tl : List Char), n < fuel →
    ∃ ds, Nat.toDigitsCore 10 fuel n tl = ds ++ tl ∧ Numeral ds n := by
  induction fuel with
  | zero => intro n tl h; omega
  | succ fuel ih =>
    intro n tl h
    unfold Nat.toDigitsCore
    by_cases h0 : n / 10 = 0
    · simp only [h0, if_true]
      have hn : n < 10 := by omega
      have hm : n % 10 = n := Nat.mod_eq_of_lt hn
      rw [hm]
      exact ⟨[Nat.digitChar n], rfl, numeral_one n hn⟩
    · simp only [h0, if_false]
      obtain ⟨ds, hds, hnum⟩ := ih (n / 10) (Nat.digitChar (n % 10) :: tl) (by omega)
      refine ⟨ds ++ [Nat.digitChar (n % 10)], ?_, numeral_snoc ds n (by omega) hnum⟩
      rw [hds, List.append_assoc, List.singleton_append]

theorem decimal_numeral (n : Nat) : Numeral (decimal n) n := by
  obtain ⟨ds, hds, hnum⟩ := toDigitsCore_numeral (n + 1) n [] (by omega)
  have : decimal n = ds := by
    unfold decimal Nat.toDigits
    rw [hds, List.append_nil]
  rw [this]
  exact hnum

theorem is_digit_not_space (c : Char) (h : is_digit c) : ISSPACE c = false := by
  have h1 := h.1
  unfold ISSPACE
  simp only [Bool.or_eq_false_iff, decide_eq_false_iff_not]
  refine ⟨⟨⟨⟨⟨?_, ?_⟩, ?_⟩, ?_⟩, ?_⟩, ?_⟩ <;> (intro hc; subst hc; revert h1; decide)

theorem is_digit_ne (c d : Char) (h : is_digit c) (hd : d.toNat < 48 ∨ 57 < d.toNat) : c ≠ d := by
  intro hc
  subst hc
  have := h.1; have := h.2
  omega

theorem parse_long_long_decimal (n : Nat) (rest : List Char) (base : Nat)
    (hb : base = 10 ∨ (base = 0 ∧ 0 < n)) (hn : n ≤ G_MAXUINT64) (hrest : Stops rest) :
    g_parse_long_long (decimal n ++ rest) base = ⟨n, false, (decimal n).length⟩ := by
  have hnum := decimal_numeral n
  obtain ⟨c, hc, hc1⟩ := hnum.first
  have hreads := hnum.reads 0 0 rest (by simpa using hn)
  rw [parse_digits_stop 10 rest _ _ _ hrest] at hreads
  simp only [zero_mul, zero_add] at hreads
  generalize decimal n = ds at *
  cases ds with
  | nil => simp at hc
  | cons a t =>
    simp only [List.head?_cons, Option.some.injEq] at hc
    subst hc
    have hdig : is_digit a := hnum.digits a (List.mem_cons_self _ _)
    have hsp := is_digit_not_space a hdig
    have hminus : a ≠ '-' := is_digit_ne a '-' hdig (by decide)
    have hplus : a ≠ '+' := is_digit_ne a '+' hdig (by decide)
    have hbase : ¬ (base = 1 ∨ 36 < base) := by omega
    have hhex : has_hex_prefix (a :: t ++ rest) base = false := by
      unfold has_hex_prefix
      rw [decide_eq_false_iff_not]
      rintro ⟨h0, hb16, -⟩
      rcases hb with hb | ⟨hb, hpos⟩
      · omega
      · simp only [List.cons_append, List.head?_cons, Option.some.injEq] at h0
        subst h0
        exact absurd (hc1 hpos) (by decide)
    have heff : effective_base (a :: t ++ rest) base = 10 := by
      unfold effective_base
      rw [hhex]
      rcases hb with hb | ⟨hb, hpos⟩
      · subst hb; simp
      · subst hb
        have h0 : a ≠ '0' := by
          intro h0
          subst h0
          exact absurd (hc1 hpos) (by decide)
        simp [h0]
    unfold g_parse_long_long
    rw [if_neg hbase]
    simp only [List.cons_append, List.takeWhile_cons, hsp, Bool.false_eq_true, if_false,
      List.length_nil, List.drop_zero, hminus, hplus, or_self, zero_add, add_zero,
      decide_False]
    rw [← List.cons_append, hhex, heff]
    simp only [Bool.false_eq_true, if_false, List.drop_zero, hreads]
    simp [parse_long_finish]

theorem strtoll_decimal (n : Nat) (rest : List Char) (base : Nat)
    (hb : base = 10 ∨ (base = 0 ∧ 0 < n)) (hn : n < 2 ^ 63) (hrest : Stops rest) :
    g_ascii_strtoll (decimal n ++ rest) base = ((n : Int), (decimal n).length) := by
  unfold g_ascii_strtoll
  rw [parse_long_long_decimal n rest base hb (by unfold G_MAXUINT64; omega) hrest]
  simp only [Bool.false_eq_true, false_and, if_false, not_false_eq_true, true_and]
  rw [if_neg (by omega)]

theorem stops_nil : Stops [] := by
  intro c hc
  simp at hc

theorem stops_cons (c : Char) (r : List Char) (h : digit_value c = none) : Stops (c :: r) := by
  intro d hd v hv
  simp only [List.head?_cons, Option.some.injEq] at hd
  subst hd
  rw [h] at hv
  cases hv

theorem decimal_length (n : Nat) (h : n < 2 ^ 63) :
    0 < (decimal n).length ∧ (decimal n).length ≤ 20 := by
  have hnum := decimal_numeral n
  constructor
  · obtain ⟨c, hc, -⟩ := hnum.first
    cases hd : decimal n with
    | nil => rw [hd] at hc; simp at hc
    | cons a t => simp
  · rcases hnum.short with hs | ⟨-, h1⟩
    · have h2 : 10 ^ (decimal n).length < 10 ^ 21 := by
        have : (10 : Nat) * n < 10 ^ 21 := by omega
        omega
      have := (Nat.pow_lt_pow_iff_right (by decide : 1 < 10)).mp h2
      omega
    · omega

theorem dropWhile_x (a b : List Char) (h : ∀ c ∈ a, c ≠ 'x') :
    (a ++ 'x' :: b).dropWhile (fun c => c != 'x') = 'x' :: b := by
  induction a with
  | nil => simp
  | cons c t ih =>
    have hc : c ≠ 'x' := h c (List.mem_cons_self _ _)
    have ht := ih (fun d hd => h d (List.mem_cons_of_mem _ hd))
    simp [List.dropWhile_cons, hc, ht]

theorem dropWhile_no_x (a : List Char) (h : ∀ c ∈ a, c ≠ 'x') :
    a.dropWhile (fun c => c != 'x') = [] := by
  induction a with
  | nil => rfl
  | cons c t ih =>
    have hc : c ≠ 'x' := h c (List.mem_cons_self _ _)
    have ht := ih (fun d hd => h d (List.mem_cons_of_mem _ hd))
    simp [List.dropWhile_cons, hc, ht]

theorem strsplit_two (a b : List Char) (h : ∀ c ∈ a, c ≠ 'x') :
    g_strsplit_x (a ++ 'x' :: b) 2 = [a, b] := by
  unfold g_strsplit_x
  rw [if_neg (by simp)]
  simp [strsplit_loop, strstr_x, dropWhile_x a b h]

theorem strsplit_one (a : List Char) (ha : a ≠ []) (h : ∀ c ∈ a, c ≠ 'x') :
    g_strsplit_x a 2 = [a] := by
  unfold g_strsplit_x
  rw [if_neg ha]
  simp [strsplit_loop, strstr_x, dropWhile_no_x a h]

theorem char_at_last (stray : Char) (tok : List Char) (h : tok ≠ []) (hl : tok.length ≤ 256) :
    char_at stray tok ((strnlen tok 256 : Int) - 1) = tok.getLast h := by
  have hpos : 0 < tok.length := List.length_pos.mpr h
  unfold char_at strnlen
  rw [min_eq_left hl, if_neg (by omega)]
  have : ((tok.length : Int) - 1).toNat = tok.length - 1 := by omega
  rw [this, List.getLast_eq_getElem, List.getD_eq_getElem?_getD,
    List.getElem?_eq_getElem (by omega)]
  rfl

theorem to_gint_small (v : Int) (h0 : -(2 ^ 31) ≤ v) (h1 : v < 2 ^ 31) : to_gint v = v := by
  unfold to_gint
  omega

theorem minus_one_eq : GDouble.eq (GDouble.of_int (-1)) (GDouble.of_int (-1)) = true := by decide

theorem decimal_ne_nil (n : Nat) : decimal n ≠ [] := by
  obtain ⟨c, hc, -⟩ := (decimal_numeral n).first
  intro h
  rw [h] at hc
  simp at hc

theorem decimal_no_x (n : Nat) : ∀ c ∈ decimal n, c ≠ 'x' := fun c hc =>
  is_digit_ne c 'x' ((decimal_numeral n).digits c hc) (by decide)

theorem decimal_value (n : Nat) (rest : List Char) (h : n < 2 ^ 31) (h0 : 0 < n)
    (hrest : Stops rest) : to_gint (g_ascii_strtoll (decimal n ++ rest) 0).1 = n := by
  rw [strtoll_decimal n rest 0 (Or.inr ⟨rfl, h0⟩) (by omega) hrest]
  exact to_gint_small _ (by omega) (by omega)

theorem decimal_last (stray : Char) (n : Nat) (h : n < 2 ^ 63) :
    char_at stray (decimal n) ((strnlen (decimal n) 256 : Int) - 1) ≠ '%' := by
  rw [char_at_last stray (decimal n) (decimal_ne_nil n) (by have := (decimal_length n h).2; omega)]
  exact is_digit_ne _ '%' ((decimal_numeral n).digits _ (List.getLast_mem _)) (by decide)

/-- The loop body of `parse_dim_string` on a plain decimal token while no
percentage has been seen. -/
theorem dim_body_literal (host : Host) (i n : Nat) (dim : Int × Int) (hi : i = 0 ∨ i = 1)
    (h0 : 0 < n) (h : n < 2 ^ 31) :
    dim_body host i (decimal n) ⟨(GDouble.of_int (-1), GDouble.of_int (-1)), dim⟩
      = ⟨(GDouble.of_int (-1), GDouble.of_int (-1)), set2 dim i n⟩ := by
  have hv := decimal_value n [] h h0 stops_nil
  rw [List.append_nil] at hv
  have hlast := decimal_last host.stray n (by omega)
  have hpos : (0 : Int) < n := by omega
  unfold dim_body
  simp only [hv, hlast, if_false]
  rcases hi with hi | hi <;> subst hi <;> simp [get2, set2, minus_one_eq, hpos]

theorem dim_string_literal (host : Host) (W H : Nat) (hW : 0 < W) (hW2 : W < 2 ^ 31)
    (hH : 0 < H) (hH2 : H < 2 ^ 31) :
    parse_dim_string host (decimal W ++ 'x' :: decimal H) = (true, ((W : Int), (H : Int))) := by
  unfold parse_dim_string
  rw [strsplit_two _ _ (decimal_no_x W)]
  simp only [dim_loop, Nat.ofNat_pos, if_true, zero_add, Nat.one_lt_ofNat]
  rw [dim_body_literal host 0 W _ (Or.inl rfl) hW hW2, dim_body_literal host 1 H _ (Or.inr rfl) hH hH2]
  have h1 : (0 : Int) < W := by omega
  have h2 : (0 : Int) < H := by omega
  simp [set2, h1, h2]

/-- The base is chosen by the token: a leading `0` selects octal and a leading
`0X` hexadecimal, so these are not read as decimal literals. -/
theorem dim_string_octal :
    parse_dim_string host0 "010x600".toList = (true, (8, 600)) ∧
    parse_dim_string host0 "0X10x600".toList = (true, (16, 600)) := by
  decide

/-! ## Position tokens -/

theorem takeWhile_sign_digit (c : Char) (hc : is_sign c = true) (a : Char) (ha : is_digit a)
    (t : List Char) : (c :: a :: t).takeWhile is_sign = [c] := by
  have h1 : is_sign a = false := by
    unfold is_sign
    simp only [Bool.or_eq_false_iff, decide_eq_false_iff_not]
    exact ⟨is_digit_ne a '+' ha (by decide), is_digit_ne a '-' ha (by decide)⟩
  simp [List.takeWhile_cons, hc, h1]

/-- A sign character and a decimal literal make one position token. -/
theorem pos_token_signed (c : Char) (hc : is_sign c = true) (n : Nat) (rest : List Char)
    (hn : n < 2 ^ 63) (hrest : Stops rest) (hpct : rest.head? ≠ some '%') (value : GValue) :
    parse_pos_token (c :: (decimal n ++ rest)) value
      = (true, rest, GValue.int64 n, decide (c = '-')) := by
  have hst := strtoll_decimal n rest 10 (Or.inl rfl) hn hrest
  have hlen := (decimal_length n hn).1
  have hnum := decimal_numeral n
  have hpfx : parse_pos_token_prefix (c :: (decimal n ++ rest))
      = (true, decimal n ++ rest, some [c]) := by
    unfold parse_pos_token_prefix
    cases hd : decimal n with
    | nil => rw [hd] at hlen; simp at hlen
    | cons a t =>
      have ha : is_digit a := hnum.digits a (by rw [hd]; exact List.mem_cons_self _ _)
      rw [List.cons_append, takeWhile_sign_digit c hc a ha]
      simp
  have htok : parse_geom_token (decimal n ++ rest) = (true, rest, GValue.int64 n) := by
    unfold parse_geom_token
    rw [hst]
    simp only [List.drop_left]
    cases rest with
    | nil => simpa using decimal_ne_nil n
    | cons b r =>
      have hb : b ≠ '%' := by simpa using hpct
      split
      · next heq => simp only [List.cons.injEq] at heq; exact absurd heq.1 hb
      · simpa using decimal_ne_nil n
  unfold parse_pos_token
  rw [hpfx]
  simp only [if_true, htok, List.head?_cons, Option.some.injEq]

/-! ## The width guard of `parse_dim_string` -/

theorem dim_body_keeps_width (host : Host) (i : Nat) (tok : List Char) (st : DimState)
    (hi : 1 ≤ i) : (dim_body host i tok st).dim.1 = st.dim.1 := by
  have h0 : i ≠ 0 := by omega
  unfold dim_body
  simp only [h0, false_and, false_or]
  split_ifs <;> simp [set2, h0]

theorem dim_loop_keeps_width (host : Host) (toks : List (List Char)) :
    ∀ (i : Nat) (st : DimState), 1 ≤ i → (dim_loop host i toks st).dim.1 = st.dim.1 := by
  induction toks with
  | nil => intro i st _; rfl
  | cons tok rest ih =>
    intro i st hi
    unfold dim_loop
    split
    · rw [ih (i + 1) _ (by omega), dim_body_keeps_width host i tok st hi]
    · rfl

theorem dim_body_rejects_width (host : Host) (tok : List Char) (st : DimState)
    (h : to_gint (g_ascii_strtoll tok 0).1 ≤ 0) : dim_body host 0 tok st = st := by
  unfold dim_body
  rw [if_neg]
  rintro (⟨-, hpos⟩ | h1)
  · omega
  · omega

/-! ## Known values of the `gdouble` model -/

/-- The `gdouble` nearest to 1/10 is `0x3FB999999999999A`. -/
theorem one_tenth :
    GDouble.div (GDouble.of_int 1) (GDouble.of_int 10) = GDouble.finite 7205759403792794 (-56) := by
  decide

/-- The conversion of `G_MAXINT64` to `gdouble` rounds up to `2 ^ 63`. -/
theorem maxint64_rounds :
    GDouble.of_int G_MAXINT64 = GDouble.finite 4503599627370496 11 := by
  decide

/-- The product `(29/100.0)*100` is the `gdouble` just below 29. -/
theorem twenty_nine_percent :
    GDouble.mul (GDouble.div (GDouble.of_int 29) (GDouble.of_int 100)) (GDouble.of_int 100)
      = GDouble.finite 8162774324609023 (-48) := by
  decide

/-! ## Rounding error of `GDouble` -/

theorem log2_loop_spec (fuel : Nat) : ∀ n : Nat, 0 < n → n < 2 ^ fuel →
    2 ^ log2_loop fuel n ≤ n ∧ n < 2 ^ (log2_loop fuel n + 1) := by
  induction fuel with
  | zero => intro n h0 h1; simp at h1; omega
  | succ fuel ih =>
    intro n h0 h1
    unfold log2_loop
    by_cases h2 : n < 2
    · rw [if_pos h2]
      simp only [pow_zero, zero_add, pow_one]
      omega
    · rw [if_neg h2]
      rw [pow_succ] at h1
      obtain ⟨ha, hb⟩ := ih (n / 2) (by omega) (by omega)
      rw [pow_succ] at hb ⊢
      rw [pow_succ, pow_succ]
      constructor <;> omega

theorem ilog2_spec (n : Nat) (h : 0 < n) : 2 ^ ilog2 n ≤ n ∧ n < 2 ^ (ilog2 n + 1) :=
  log2_loop_spec n n h (Nat.lt_two_pow n)

theorem two_zpow_toNat (l : Int) (h : 0 ≤ l) : ((2 : ℚ) ^ l.toNat) = (2 : ℚ) ^ l := by
  rw [← zpow_natCast, Int.toNat_of_nonneg h]

/-- The exponent `ratio_exponent n d` brackets the quotient. -/
theorem ratio_exponent_spec (n d : Nat) (hn : 0 < n) (hd : 0 < d) :
    (2 : ℚ) ^ ratio_exponent n d ≤ (n : ℚ) / d ∧ (n : ℚ) / d < (2 : ℚ) ^ (ratio_exponent n d + 1) := by
  obtain ⟨na, nb⟩ := ilog2_spec n hn
  obtain ⟨da, db⟩ := ilog2_spec d hd
  have hdq : (0 : ℚ) < d := by exact_mod_cast hd
  unfold ratio_exponent
  simp only []
  have na' : (2 : ℚ) ^ (ilog2 n : Int) ≤ n := by rw [zpow_natCast]; exact_mod_cast na
  have nb' : (n : ℚ) < (2 : ℚ) ^ ((ilog2 n : Int) + 1) := by
    rw [show ((ilog2 n : Int) + 1) = ((ilog2 n + 1 : Nat) : Int) by push_cast; rfl, zpow_natCast]
    exact_mod_cast nb
  have da' : (2 : ℚ) ^ (ilog2 d : Int) ≤ d := by rw [zpow_natCast]; exact_mod_cast da
  have db' : (d : ℚ) < (2 : ℚ) ^ ((ilog2 d : Int) + 1) := by
    rw [show ((ilog2 d : Int) + 1) = ((ilog2 d + 1 : Nat) : Int) by push_cast; rfl, zpow_natCast]
    exact_mod_cast db
  generalize (ilog2 n : Int) = a at *
  generalize (ilog2 d : Int) = b at *
  have h2 : (0 : ℚ) < 2 := by norm_num
  have pa : (0 : ℚ) < (2 : ℚ) ^ (a - b) := zpow_pos h2 _
  -- the quotient lies strictly between 2 ^ (l - 1) and 2 ^ (l + 1)
  have lo : (2 : ℚ) ^ (a - b - 1) * d < n := by
    have : (2 : ℚ) ^ (a - b - 1) * (2 : ℚ) ^ (b + 1) = (2 : ℚ) ^ a := by
      rw [← zpow_add₀ (by norm_num : (2 : ℚ) ≠ 0)]; congr 1; ring
    calc (2 : ℚ) ^ (a - b - 1) * d < (2 : ℚ) ^ (a - b - 1) * (2 : ℚ) ^ (b + 1) :=
          mul_lt_mul_of_pos_left db' (zpow_pos h2 _)
      _ = (2 : ℚ) ^ a := this
      _ ≤ n := na'
  have hi : (n : ℚ) < (2 : ℚ) ^ (a - b + 1) * d := by
    have : (2 : ℚ) ^ (a - b + 1) * (2 : ℚ) ^ b = (2 : ℚ) ^ (a + 1) := by
      rw [← zpow_add₀ (by norm_num : (2 : ℚ) ≠ 0)]; congr 1; ring
    calc (n : ℚ) < (2 : ℚ) ^ (a + 1) := nb'
      _ = (2 : ℚ) ^ (a - b + 1) * (2 : ℚ) ^ b := this.symm
      _ ≤ (2 : ℚ) ^ (a - b + 1) * d := mul_le_mul_of_nonneg_left da' (le_of_lt (zpow_pos h2 _))
  -- the test of `ratio_exponent` compares the quotient with 2 ^ l
  have test : (if 0 ≤ a - b then (if d * 2 ^ (a - b).toNat ≤ n then a - b else a - b - 1)
      else (if d ≤ n * 2 ^ (-(a - b)).toNat then a - b else a - b - 1))
      = if (2 : ℚ) ^ (a - b) * d ≤ n then a - b else a - b - 1 := by
    by_cases hl : 0 ≤ a - b
    · rw [if_pos hl]
      have : (d * 2 ^ (a - b).toNat ≤ n) ↔ ((2 : ℚ) ^ (a - b) * d ≤ n) := by
        rw [← two_zpow_toNat _ hl]
        constructor
        · intro h; have : ((d * 2 ^ (a - b).toNat : Nat) : ℚ) ≤ n := by exact_mod_cast h
          push_cast at this; linarith
        · intro h; have : ((d * 2 ^ (a - b).toNat : Nat) : ℚ) ≤ n := by push_cast; linarith
          exact_mod_cast this
      simp only [this]
    · rw [if_neg hl]
      have hneg : 0 ≤ -(a - b) := by omega
      have hz : (2 : ℚ) ^ (a - b) * (2 : ℚ) ^ (-(a - b)).toNat = 1 := by
        rw [two_zpow_toNat _ hneg, ← zpow_add₀ (by norm_num : (2 : ℚ) ≠ 0)]; simp
      have hp : (0 : ℚ) < (2 : ℚ) ^ (-(a - b)).toNat := by positivity
      have : (d ≤ n * 2 ^ (-(a - b)).toNat) ↔ ((2 : ℚ) ^ (a - b) * d ≤ n) := by
        constructor
        · intro h
          have h' : ((d : Nat) : ℚ) ≤ n * (2 : ℚ) ^ (-(a - b)).toNat := by exact_mod_cast h
          calc (2 : ℚ) ^ (a - b) * d ≤ (2 : ℚ) ^ (a - b) * (n * (2 : ℚ) ^ (-(a - b)).toNat) :=
                mul_le_mul_of_nonneg_left h' (le_of_lt pa)
            _ = n * ((2 : ℚ) ^ (a - b) * (2 : ℚ) ^ (-(a - b)).toNat) := by ring
            _ = n := by rw [hz, mul_one]
        · intro h
          have h' : ((d : Nat) : ℚ) ≤ n * (2 : ℚ) ^ (-(a - b)).toNat := by
            calc (d : ℚ) = ((2 : ℚ) ^ (a - b) * (2 : ℚ) ^ (-(a - b)).toNat) * d := by rw [hz, one_mul]
              _ = ((2 : ℚ) ^ (a - b) * d) * (2 : ℚ) ^ (-(a - b)).toNat := by ring
              _ ≤ n * (2 : ℚ) ^ (-(a - b)).toNat := mul_le_mul_of_nonneg_right h (le_of_lt hp)
          exact_mod_cast h'
      simp only [this]
  rw [test]
  by_cases ht : (2 : ℚ) ^ (a - b) * d ≤ n
  · rw [if_pos ht]
    exact ⟨by rw [le_div_iff₀ hdq]; exact ht, by rw [div_lt_iff₀ hdq]; exact hi⟩
  · rw [if_neg ht]
    refine ⟨by rw [le_div_iff₀ hdq]; exact le_of_lt lo, ?_⟩
    rw [div_lt_iff₀ hdq, show a - b - 1 + 1 = a - b by ring]
    exact lt_of_not_le ht

/-- The integer `round_half_even n d` is within one half of the quotient. -/
theorem round_half_even_spec (n d : Nat) (hd : 0 < d) :
    |(round_half_even n d : ℚ) - (n : ℚ) / d| ≤ 1 / 2 := by
  have hdq : (0 : ℚ) < d := by exact_mod_cast hd
  have hsplit : (n : ℚ) = d * (n / d : Nat) + (n % d : Nat) := by exact_mod_cast (Nat.div_add_mod n d).symm
  have hr : ((n % d : Nat) : ℚ) < d := by exact_mod_cast Nat.mod_lt n hd
  have hr0 : (0 : ℚ) ≤ ((n % d : Nat) : ℚ) := by positivity
  have hq : (n : ℚ) / d = (n / d : Nat) + ((n % d : Nat) : ℚ) / d := by
    rw [hsplit]; field_simp; ring
  unfold round_half_even
  simp only []
  rw [hq, abs_le]
  split_ifs with h1 h2 h3
  · have : (2 : ℚ) * ((n % d : Nat) : ℚ) < d := by exact_mod_cast h1
    have : ((n % d : Nat) : ℚ) / d < 1 / 2 := by rw [div_lt_iff₀ hdq]; linarith
    have : 0 ≤ ((n % d : Nat) : ℚ) / d := by positivity
    constructor <;> linarith
  · have : (d : ℚ) < 2 * ((n % d : Nat) : ℚ) := by exact_mod_cast h2
    have : 1 / 2 < ((n % d : Nat) : ℚ) / d := by rw [lt_div_iff₀ hdq]; linarith
    have : ((n % d : Nat) : ℚ) / d < 1 := by rw [div_lt_iff₀ hdq]; linarith
    push_cast
    constructor <;> linarith
  · have he : 2 * (n % d) = d := by omega
    have : (2 : ℚ) * ((n % d : Nat) : ℚ) = d := by exact_mod_cast he
    have : ((n % d : Nat) : ℚ) / d = 1 / 2 := by rw [div_eq_iff (ne_of_gt hdq)]; linarith
    constructor <;> linarith
  · have he : 2 * (n % d) = d := by omega
    have : (2 : ℚ) * ((n % d : Nat) : ℚ) = d := by exact_mod_cast he
    have : ((n % d : Nat) : ℚ) / d = 1 / 2 := by rw [div_eq_iff (ne_of_gt hdq)]; linarith
    push_cast
    constructor <;> linarith

theorem round_mantissa_spec (n d : Nat) (e : Int) (hd : 0 < d) :
    |(round_mantissa n d e : ℚ) - (n : ℚ) / d * (2 : ℚ) ^ (-e)| ≤ 1 / 2 := by
  have hdq : (0 : ℚ) < d := by exact_mod_cast hd
  unfold round_mantissa
  by_cases he : 0 ≤ e
  · rw [if_pos he]
    have hp : 0 < d * 2 ^ e.toNat := by positivity
    have h := round_half_even_spec n (d * 2 ^ e.toNat) hp
    have : (n : ℚ) / ((d * 2 ^ e.toNat : Nat) : ℚ) = (n : ℚ) / d * (2 : ℚ) ^ (-e) := by
      push_cast
      rw [two_zpow_toNat e he, zpow_neg]
      field_simp
    rw [this] at h
    exact h
  · rw [if_neg he]
    have h := round_half_even_spec (n * 2 ^ (-e).toNat) d hd
    have : (((n * 2 ^ (-e).toNat : Nat) : ℚ)) / d = (n : ℚ) / d * (2 : ℚ) ^ (-e) := by
      push_cast
      rw [two_zpow_toNat (-e) (by omega)]
      ring
    rw [this] at h
    exact h

theorem pack_val (m : Nat) (e : Int) (he : e < 971) :
    GDouble.Val (GDouble.pack false m e) ((m : ℚ) * (2 : ℚ) ^ e) := by
  unfold GDouble.pack
  simp only [Bool.false_eq_true, if_false]
  by_cases hm : m = 2 ^ 53
  · rw [if_pos hm, if_pos hm, if_neg (by omega)]
    refine ⟨2 ^ 52, e + 1, rfl, ?_⟩
    rw [hm, zpow_add₀ (by norm_num : (2 : ℚ) ≠ 0)]
    push_cast
    ring
  · rw [if_neg hm, if_neg hm, if_neg (by omega)]
    exact ⟨m, e, rfl, rfl⟩

/-- Rounding a positive quotient that is neither tiny nor huge gives a finite
value within the relative error `2 ^ -53`. -/
theorem round_val (n d : Nat) (hn : 0 < n) (hd : 0 < d)
    (hlo : (2 : ℚ) ^ (-900 : Int) ≤ (n : ℚ) / d) (hhi : (n : ℚ) / d ≤ (2 : ℚ) ^ (900 : Int)) :
    ∃ v : ℚ, GDouble.Val (GDouble.round false n d) v ∧ |v - (n : ℚ) / d| ≤ (n : ℚ) / d / 2 ^ 53 := by
  obtain ⟨h1, h2⟩ := ratio_exponent_spec n d hn hd
  have two : (1 : ℚ) < 2 := by norm_num
  have hE1 : -901 < ratio_exponent n d + 1 := by
    have : (2 : ℚ) ^ (-900 : Int) < (2 : ℚ) ^ (ratio_exponent n d + 1) := by
      calc (2 : ℚ) ^ (-900 : Int) ≤ (n : ℚ) / d := hlo
        _ < _ := h2
    have := (zpow_lt_zpow_iff_right₀ two).mp this
    omega
  have hE2 : ratio_exponent n d ≤ 900 := by
    have : (2 : ℚ) ^ ratio_exponent n d ≤ (2 : ℚ) ^ (900 : Int) := by
      calc (2 : ℚ) ^ ratio_exponent n d ≤ (n : ℚ) / d := h1
        _ ≤ (2 : ℚ) ^ (900 : Int) := hhi
    exact (zpow_le_zpow_iff_right₀ two).mp this
  have hexp : round_exponent n d = ratio_exponent n d - 52 := by
    unfold round_exponent
    exact max_eq_left (by omega)
  have hm := round_mantissa_spec n d (round_exponent n d) hd
  unfold GDouble.round
  rw [if_neg (by omega)]
  refine ⟨_, pack_val _ _ (by omega), ?_⟩
  generalize round_mantissa n d (round_exponent n d) = m at hm
  rw [hexp] at hm ⊢
  generalize ratio_exponent n d = E at *
  have hpos : (0 : ℚ) < (2 : ℚ) ^ (E - 52) := zpow_pos (by norm_num) _
  have hinv : (2 : ℚ) ^ (-(E - 52)) * (2 : ℚ) ^ (E - 52) = 1 := by
    rw [← zpow_add₀ (by norm_num : (2 : ℚ) ≠ 0)]; simp
  have hfac : (m : ℚ) * (2 : ℚ) ^ (E - 52) - (n : ℚ) / d
      = ((m : ℚ) - (n : ℚ) / d * (2 : ℚ) ^ (-(E - 52))) * (2 : ℚ) ^ (E - 52) := by
    rw [sub_mul, mul_assoc, hinv, mul_one]
  rw [hfac, abs_mul, abs_of_pos hpos]
  have hE : (2 : ℚ) ^ (E - 52) = (2 : ℚ) ^ E / 2 ^ 52 := by
    rw [zpow_sub₀ (by norm_num : (2 : ℚ) ≠ 0)]; norm_cast
  calc |(m : ℚ) - (n : ℚ) / d * (2 : ℚ) ^ (-(E - 52))| * (2 : ℚ) ^ (E - 52)
      ≤ 1 / 2 * (2 : ℚ) ^ (E - 52) := mul_le_mul_of_nonneg_right hm (le_of_lt hpos)
    _ = (2 : ℚ) ^ E / 2 ^ 53 := by rw [hE]; ring
    _ ≤ (n : ℚ) / d / 2 ^ 53 := by
        apply div_le_div_of_nonneg_right h1
        positivity

theorem round_half_even_one (n : Nat) : round_half_even n 1 = n := by
  unfold round_half_even
  simp [Nat.mod_one]

theorem two_pow_toNat_div (k : Int) :
    (2 : ℚ) ^ k.toNat / (2 : ℚ) ^ (-k).toNat = (2 : ℚ) ^ k := by
  rcases le_total 0 k with h | h
  · have h0 : (-k).toNat = 0 := by omega
    rw [h0, pow_zero, div_one, two_zpow_toNat k h]
  · have h0 : k.toNat = 0 := by omega
    rw [h0, pow_zero, two_zpow_toNat (-k) (by omega), zpow_neg, one_div, inv_inv]

theorem val_zero : GDouble.Val (GDouble.finite 0 0) 0 := ⟨0, 0, rfl, by simp⟩

theorem val_nonneg (g : GDouble) (v : ℚ) (h : GDouble.Val g v) : 0 ≤ v := by
  obtain ⟨m, e, -, rfl⟩ := h
  positivity

/-- An integer below `2 ^ 53` converts to `gdouble` exactly. -/
theorem of_int_val (i : Nat) (h : i < 2 ^ 53) : GDouble.Val (GDouble.of_int (i : Int)) (i : ℚ) := by
  unfold GDouble.of_int GDouble.round
  simp only [Int.natAbs_ofNat]
  have hneg : decide ((i : Int) < 0) = false := by simp
  rw [hneg]
  by_cases h0 : i = 0
  · rw [if_pos h0, h0]; exact_mod_cast val_zero
  · rw [if_neg h0]
    have hpos : 0 < i := Nat.pos_of_ne_zero h0
    obtain ⟨h1, h2⟩ := ratio_exponent_spec i 1 hpos (by decide)
    simp only [Nat.cast_one, div_one] at h1 h2
    have two : (1 : ℚ) < 2 := by norm_num
    have hE1 : 0 < ratio_exponent i 1 + 1 := by
      have : (2 : ℚ) ^ (0 : Int) < (2 : ℚ) ^ (ratio_exponent i 1 + 1) := by
        calc (2 : ℚ) ^ (0 : Int) = 1 := by simp
          _ ≤ (i : ℚ) := by exact_mod_cast hpos
          _ < _ := h2
      exact (zpow_lt_zpow_iff_right₀ two).mp this
    have hE2 : ratio_exponent i 1 < 53 := by
      have : (2 : ℚ) ^ ratio_exponent i 1 < (2 : ℚ) ^ (53 : Int) := by
        calc (2 : ℚ) ^ ratio_exponent i 1 ≤ (i : ℚ) := h1
          _ < (2 : ℚ) ^ (53 : Int) := by exact_mod_cast h
      exact (zpow_lt_zpow_iff_right₀ two).mp this
    have hexp : round_exponent i 1 = ratio_exponent i 1 - 52 := by
      unfold round_exponent
      exact max_eq_left (by omega)
    rw [hexp]
    generalize ratio_exponent i 1 = E at *
    have hm : ((round_mantissa i 1 (E - 52) : Nat) : ℚ) * (2 : ℚ) ^ (E - 52) = i := by
      unfold round_mantissa
      by_cases he : 0 ≤ E - 52
      · have : E - 52 = 0 := by omega
        rw [this]
        simp [round_half_even_one]
      · rw [if_neg he, round_half_even_one]
        push_cast
        rw [two_zpow_toNat _ (by omega), mul_assoc, ← zpow_add₀ (by norm_num : (2 : ℚ) ≠ 0)]
        simp
    have := pack_val (round_mantissa i 1 (E - 52)) (E - 52) (by omega)
    rw [hm] at this
    exact this

/-- The quotient of two finite values, the divisor positive, is finite and
within the relative error `2 ^ -53` of the exact quotient. -/
theorem div_val (a b : GDouble) (xa xb : ℚ) (ha : GDouble.Val a xa) (hb : GDouble.Val b xb)
    (hpos : 0 < xb)
    (hr : xa = 0 ∨ ((2 : ℚ) ^ (-900 : Int) ≤ xa / xb ∧ xa / xb ≤ (2 : ℚ) ^ (900 : Int))) :
    ∃ v : ℚ, GDouble.Val (GDouble.div a b) v ∧ |v - xa / xb| ≤ xa / xb / 2 ^ 53 := by
  obtain ⟨ma, ea, rfl, hva⟩ := ha
  obtain ⟨mb, eb, rfl, hvb⟩ := hb
  have hpe : (0 : ℚ) < (2 : ℚ) ^ eb := zpow_pos (by norm_num) _
  have hmb : 0 < mb := by
    rcases Nat.eq_zero_or_pos mb with h | h
    · rw [h] at hvb; simp at hvb; rw [← hvb] at hpos; exact absurd hpos (lt_irrefl _)
    · exact h
  have hmb0 : ¬ ((mb : Int) = 0) := by omega
  unfold GDouble.div
  simp only [hmb0, if_false, Int.natAbs_ofNat]
  have hneg : xor (decide ((ma : Int) < 0)) (decide ((mb : Int) < 0)) = false := by
    rw [decide_eq_false (by omega : ¬ (ma : Int) < 0), decide_eq_false (by omega : ¬ (mb : Int) < 0)]
    rfl
  rw [hneg]
  by_cases hma : ma = 0
  · subst hma
    have hxa : xa = 0 := by rw [← hva]; simp
    subst hxa
    refine ⟨0, ?_, by simp⟩
    unfold GDouble.round
    simp only [zero_mul, if_true]
    exact val_zero
  · have hma' : 0 < ma := Nat.pos_of_ne_zero hma
    have hxa : 0 < xa := by rw [← hva]; positivity
    have hq : (((ma * 2 ^ (ea - eb).toNat : Nat) : ℚ)) / ((mb * 2 ^ (eb - ea).toNat : Nat) : ℚ)
        = xa / xb := by
      rw [← hva, ← hvb]
      push_cast
      have h1 := two_pow_toNat_div (ea - eb)
      rw [show -(ea - eb) = eb - ea by ring] at h1
      have h2 : (2 : ℚ) ^ (ea - eb) = (2 : ℚ) ^ ea / (2 : ℚ) ^ eb :=
        zpow_sub₀ (by norm_num : (2 : ℚ) ≠ 0) _ _
      have hmbq : (mb : ℚ) ≠ 0 := by exact_mod_cast (ne_of_gt hmb)
      have hp1 : ((2 : ℚ) ^ (eb - ea).toNat) ≠ 0 := by positivity
      rw [mul_div_mul_comm, h1, h2]
      field_simp
    rcases hr with hr | ⟨hlo, hhi⟩
    · exact absurd hr (ne_of_gt hxa)
    · have := round_val (ma * 2 ^ (ea - eb).toNat) (mb * 2 ^ (eb - ea).toNat) (by positivity)
        (by positivity) (by rw [hq]; exact hlo) (by rw [hq]; exact hhi)
      rw [hq] at this
      exact this

/-- The product of two finite values that are not negative is finite and
within the relative error `2 ^ -53` of the exact product. -/
theorem mul_val (a b : GDouble) (xa xb : ℚ) (ha : GDouble.Val a xa) (hb : GDouble.Val b xb)
    (hr : xa * xb = 0 ∨ ((2 : ℚ) ^ (-900 : Int) ≤ xa * xb ∧ xa * xb ≤ (2 : ℚ) ^ (900 : Int))) :
    ∃ v : ℚ, GDouble.Val (GDouble.mul a b) v ∧ |v - xa * xb| ≤ xa * xb / 2 ^ 53 := by
  obtain ⟨ma, ea, rfl, hva⟩ := ha
  obtain ⟨mb, eb, rfl, hvb⟩ := hb
  unfold GDouble.mul
  have hneg : xor (decide ((ma : Int) < 0)) (decide ((mb : Int) < 0)) = false := by
    rw [decide_eq_false (by omega : ¬ (ma : Int) < 0), decide_eq_false (by omega : ¬ (mb : Int) < 0)]
    rfl
  simp only [hneg]
  have habs : ((ma : Int) * (mb : Int)).natAbs = ma * mb := by
    rw [← Int.natCast_mul, Int.natAbs_ofNat]
  rw [habs]
  have hq : (((ma * mb * 2 ^ (ea + eb).toNat : Nat) : ℚ)) / ((2 ^ (-(ea + eb)).toNat : Nat) : ℚ)
      = xa * xb := by
    rw [← hva, ← hvb]
    push_cast
    have h1 := two_pow_toNat_div (ea + eb)
    rw [mul_div_assoc, h1, zpow_add₀ (by norm_num : (2 : ℚ) ≠ 0)]
    ring
  by_cases hm : ma * mb = 0
  · have hx : xa * xb = 0 := by
      rw [← hva, ← hvb]
      rcases Nat.mul_eq_zero.mp hm with h | h <;> simp [h]
    refine ⟨0, ?_, by rw [hx]; simp⟩
    unfold GDouble.round
    rw [hm]
    simp only [zero_mul, if_true]
    exact val_zero
  · have hx : 0 < xa * xb := by
      rw [← hq]
      have : 0 < ma * mb := Nat.pos_of_ne_zero hm
      positivity
    rcases hr with hr | ⟨hlo, hhi⟩
    · exact absurd hr (ne_of_gt hx)
    · have := round_val (ma * mb * 2 ^ (ea + eb).toNat) (2 ^ (-(ea + eb)).toNat)
        (by have : 0 < ma * mb := Nat.pos_of_ne_zero hm
            positivity)
        (by positivity) (by rw [hq]; exact hlo) (by rw [hq]; exact hhi)
      rw [hq] at this
      exact this

theorem trunc_val (m : Nat) (e : Int) : GDouble.trunc (m : Int) e = ⌊(m : ℚ) * (2 : ℚ) ^ e⌋ := by
  unfold GDouble.trunc
  by_cases he : 0 ≤ e
  · rw [if_pos he, ← two_zpow_toNat e he]
    have : (m : ℚ) * (2 : ℚ) ^ e.toNat = (((m : Int) * 2 ^ e.toNat : Int) : ℚ) := by push_cast; rfl
    rw [this, Int.floor_intCast]
  · rw [if_neg he]
    have h1 : (2 : ℚ) ^ e = 1 / ((2 ^ (-e).toNat : Nat) : ℚ) := by
      push_cast
      rw [two_zpow_toNat (-e) (by omega), zpow_neg, one_div, inv_inv]
    rw [h1, mul_one_div, Rat.floor_natCast_div_natCast]
    rw [Int.tdiv_eq_ediv (by positivity) (by positivity)]
    push_cast
    rfl

/-- The conversion `(gint) d` of a value below `2 ^ 31` is its integer part. -/
theorem to_gint_val (g : GDouble) (v : ℚ) (h : GDouble.Val g v) (hv : v < 2 ^ 31) :
    GDouble.to_gint g = ⌊v⌋ := by
  have h0 := val_nonneg g v h
  obtain ⟨m, e, rfl, rfl⟩ := h
  unfold GDouble.to_gint
  simp only [trunc_val]
  have f0 : 0 ≤ ⌊(m : ℚ) * (2 : ℚ) ^ e⌋ := Int.floor_nonneg.mpr h0
  have f1 : ⌊(m : ℚ) * (2 : ℚ) ^ e⌋ < 2 ^ 31 := by
    rw [Int.floor_lt]; exact_mod_cast hv
  rw [if_pos ⟨by omega, f1⟩]

/-- The conversion `(gint64) d` of a value below `2 ^ 63` is its integer part. -/
theorem to_gint64_val (g : GDouble) (v : ℚ) (h : GDouble.Val g v) (hv : v < 2 ^ 63) :
    GDouble.to_gint64 g = ⌊v⌋ := by
  have h0 := val_nonneg g v h
  obtain ⟨m, e, rfl, rfl⟩ := h
  unfold GDouble.to_gint64
  simp only [trunc_val]
  have f0 : 0 ≤ ⌊(m : ℚ) * (2 : ℚ) ^ e⌋ := Int.floor_nonneg.mpr h0
  have f1 : ⌊(m : ℚ) * (2 : ℚ) ^ e⌋ < 2 ^ 63 := by
    rw [Int.floor_lt]; exact_mod_cast hv
  rw [if_pos ⟨by omega, f1⟩]

/-! ## From the rounded product to the integer result -/

/-- A value close enough to the fraction `N / D` has the integer part of
`N / D`, or one less when `N / D` is a positive integer. -/
theorem floor_near (N D : Nat) (hD : 0 < D) (v ε : ℚ) (h : |v - (N : ℚ) / D| ≤ (N : ℚ) / D * ε)
    (hε : (N : ℚ) / D * ε < 1 / (2 * D)) :
    ⌊v⌋ = ((N / D : Nat) : Int) ∨ (⌊v⌋ = ((N / D : Nat) : Int) - 1 ∧ N % D = 0 ∧ 0 < N) := by
  have hdq : (0 : ℚ) < D := by exact_mod_cast hD
  have hsplit : (N : ℚ) = D * (N / D : Nat) + (N % D : Nat) := by
    exact_mod_cast (Nat.div_add_mod N D).symm
  have hX : (N : ℚ) / D = (N / D : Nat) + ((N % D : Nat) : ℚ) / D := by
    rw [div_eq_iff (ne_of_gt hdq), add_mul, div_mul_cancel₀ _ (ne_of_gt hdq)]
    linarith
  have hhalf : (0 : ℚ) < 1 / (2 * D) := by positivity
  have hD1 : (1 : ℚ) / (2 * D) ≤ 1 / 2 := by
    rw [div_le_div_iff₀ (by positivity) (by norm_num)]
    have : (1 : ℚ) ≤ D := by exact_mod_cast hD
    linarith
  obtain ⟨hl, hu⟩ := abs_le.mp h
  by_cases hρ : N % D = 0
  · rw [hρ] at hX
    simp only [Nat.cast_zero, zero_div, add_zero] at hX
    by_cases hN : N = 0
    · left
      have hv : v = 0 := by
        rw [hN] at h
        simp only [Nat.cast_zero, zero_div, sub_zero, zero_mul] at h
        exact abs_eq_zero.mp (le_antisymm h (abs_nonneg v))
      rw [hv, hN]
      simp
    · by_cases hk : ((N / D : Nat) : ℚ) ≤ v
      · left
        rw [Int.floor_eq_iff]
        simp only [Int.cast_natCast]
        constructor
        · exact hk
        · linarith
      · right
        refine ⟨?_, hρ, Nat.pos_of_ne_zero hN⟩
        rw [Int.floor_eq_iff]
        simp only [Int.cast_natCast, Int.cast_sub, Int.cast_one]
        push_neg at hk
        constructor
        · linarith
        · linarith
  · left
    have h1 : (1 : ℚ) ≤ ((N % D : Nat) : ℚ) := by
      exact_mod_cast Nat.pos_of_ne_zero hρ
    have h2 : ((N % D : Nat) : ℚ) + 1 ≤ D := by
      exact_mod_cast Nat.mod_lt N hD
    have h3 : (1 : ℚ) / D ≤ ((N % D : Nat) : ℚ) / D := by
      apply div_le_div_of_nonneg_right h1 (le_of_lt hdq)
    have h4 : ((N % D : Nat) : ℚ) / D ≤ 1 - 1 / D := by
      rw [div_le_iff₀ hdq, sub_mul, div_mul_cancel₀ _ (ne_of_gt hdq)]
      linarith
    have h5 : (1 : ℚ) / (2 * D) = 1 / D / 2 := by field_simp; ring
    rw [Int.floor_eq_iff]
    simp only [Int.cast_natCast]
    constructor
    · linarith
    · linarith

theorem lt_val (a b : GDouble) (va vb : ℚ) (ha : GDouble.Val a va) (hb : GDouble.Val b vb) :
    GDouble.lt a b = true ↔ va < vb := by
  obtain ⟨ma, ea, rfl, rfl⟩ := ha
  obtain ⟨mb, eb, rfl, rfl⟩ := hb
  unfold GDouble.lt
  simp only [decide_eq_true_eq]
  have hp : (0 : ℚ) < (2 : ℚ) ^ (eb - ea).toNat := by positivity
  have h1 := two_pow_toNat_div (ea - eb)
  rw [show -(ea - eb) = eb - ea by ring, div_eq_iff (ne_of_gt hp)] at h1
  have h2 : (2 : ℚ) ^ ea = (2 : ℚ) ^ (ea - eb) * (2 : ℚ) ^ eb := by
    rw [← zpow_add₀ (by norm_num : (2 : ℚ) ≠ 0)]; congr 1; ring
  have hpe : (0 : ℚ) < (2 : ℚ) ^ eb := zpow_pos (by norm_num) _
  constructor
  · intro h
    have hq : ((ma : ℚ)) * (2 : ℚ) ^ (ea - eb).toNat < (mb : ℚ) * (2 : ℚ) ^ (eb - ea).toNat := by
      exact_mod_cast h
    rw [h1] at hq
    have : (ma : ℚ) * (2 : ℚ) ^ (ea - eb) < mb := by
      have := (mul_lt_mul_right hp).mp (by linarith : (ma : ℚ) * (2 : ℚ) ^ (ea - eb) * (2 : ℚ) ^ (eb - ea).toNat
        < (mb : ℚ) * (2 : ℚ) ^ (eb - ea).toNat)
      exact this
    rw [h2, ← mul_assoc]
    exact (mul_lt_mul_right hpe).mpr this
  · intro h
    rw [h2, ← mul_assoc] at h
    have h3 := (mul_lt_mul_right hpe).mp h
    have hq : ((ma : ℚ)) * (2 : ℚ) ^ (ea - eb).toNat < (mb : ℚ) * (2 : ℚ) ^ (eb - ea).toNat := by
      rw [h1, ← mul_assoc]
      exact (mul_lt_mul_right hp).mpr h3
    exact_mod_cast hq

theorem val_ne_minus_one (g : GDouble) (v : ℚ) (h : GDouble.Val g v) :
    GDouble.eq g (GDouble.of_int (-1)) = false := by
  obtain ⟨m, e, rfl, -⟩ := h
  have h1 : GDouble.of_int (-1) = GDouble.finite (-4503599627370496) (-52) := by decide
  rw [h1]
  unfold GDouble.eq
  simp only [decide_eq_false_iff_not]
  intro heq
  have hl : (0 : Int) ≤ (m : Int) * 2 ^ (e - -52).toNat := by positivity
  have hr : (-4503599627370496 : Int) * 2 ^ (-52 - e).toNat < 0 := by
    have : (0 : Int) < 2 ^ (-52 - e).toNat := by positivity
    nlinarith
  omega

theorem two_zpow_le (a b : Int) (h : a ≤ b) : (2 : ℚ) ^ a ≤ (2 : ℚ) ^ b :=
  zpow_le_zpow_right₀ (by norm_num) h

/-- Bounds that put a rational in the range of `round_val`. -/
theorem in_range (x : ℚ) (hlo : (1 : ℚ) / 2 ^ 64 ≤ x) (hhi : x ≤ 2 ^ 64) :
    (2 : ℚ) ^ (-900 : Int) ≤ x ∧ x ≤ (2 : ℚ) ^ (900 : Int) := by
  constructor
  · calc (2 : ℚ) ^ (-900 : Int) ≤ (2 : ℚ) ^ (-64 : Int) := two_zpow_le _ _ (by norm_num)
      _ = 1 / 2 ^ 64 := by rw [zpow_neg, one_div]; norm_cast
      _ ≤ x := hlo
  · calc x ≤ 2 ^ 64 := hhi
      _ = (2 : ℚ) ^ (64 : Int) := by norm_cast
      _ ≤ (2 : ℚ) ^ (900 : Int) := two_zpow_le _ _ (by norm_num)

/-- Two roundings in a row: a value within the relative error `u` of a value
within the relative error `u` of `T` is within `3 * u` of `T`. -/
theorem compose_error (T W v u : ℚ) (hu0 : 0 ≤ u) (hu1 : u ≤ 1) (hT : 0 ≤ T)
    (hW : |W - T| ≤ T * u) (hv : |v - W| ≤ W * u) : |v - T| ≤ T * (3 * u) := by
  obtain ⟨w1, w2⟩ := abs_le.mp hW
  obtain ⟨v1, v2⟩ := abs_le.mp hv
  have hA : 0 ≤ T * u := mul_nonneg hT hu0
  have hB : T * u * u ≤ T * u := by
    calc T * u * u ≤ T * u * 1 := mul_le_mul_of_nonneg_left hu1 hA
      _ = T * u := mul_one _
  have hB0 : 0 ≤ T * u * u := mul_nonneg hA hu0
  have hWu : W * u ≤ T * u + T * u * u := by
    calc W * u ≤ (T + T * u) * u := mul_le_mul_of_nonneg_right (by linarith) hu0
      _ = T * u + T * u * u := by ring
  rw [abs_le]
  constructor <;> linarith

/-- The pixel count of `P` percent of a screen extent `S`, as
`parse_dim_string` computes it in `gdouble`: the exact `⌊P * S / 100⌋`, or one
less when `P * S / 100` is a positive integer. -/
theorem percent_pixels (P S : Nat) (hP : 0 < P) (hP2 : P < 2 ^ 31) (hS : S < 2 ^ 31)
    (hPS : P * S / 100 < 2 ^ 31) :
    GDouble.to_gint (GDouble.mul (GDouble.div (GDouble.of_int (P : Int)) (GDouble.of_int 100))
        (GDouble.of_int (S : Int)))
      = ((P * S / 100 : Nat) : Int) ∨
    (GDouble.to_gint (GDouble.mul (GDouble.div (GDouble.of_int (P : Int)) (GDouble.of_int 100))
        (GDouble.of_int (S : Int)))
      = ((P * S / 100 : Nat) : Int) - 1 ∧ P * S % 100 = 0 ∧ 0 < P * S) := by
  have hPq : (1 : ℚ) ≤ P := by exact_mod_cast hP
  have hPq2 : (P : ℚ) ≤ 2 ^ 31 := by exact_mod_cast (le_of_lt hP2)
  have hSq : (S : ℚ) ≤ 2 ^ 31 := by exact_mod_cast (le_of_lt hS)
  have hS0 : (0 : ℚ) ≤ S := by positivity
  have v100 : GDouble.Val (GDouble.of_int 100) (100 : ℚ) := by
    exact_mod_cast of_int_val 100 (by norm_num)
  have vP := of_int_val P (by omega)
  have vS := of_int_val S (by omega)
  have hx1 : (1 : ℚ) / 100 ≤ (P : ℚ) / 100 := div_le_div_of_nonneg_right hPq (by norm_num)
  have hx2 : (P : ℚ) / 100 ≤ 2 ^ 31 / 100 := div_le_div_of_nonneg_right hPq2 (by norm_num)
  have hx0 : (0 : ℚ) ≤ (P : ℚ) / 100 := by positivity
  obtain ⟨va, hva, ea⟩ := div_val _ _ (P : ℚ) (100 : ℚ) vP v100 (by norm_num)
    (Or.inr (in_range _ (by linarith [show (1 : ℚ) / 2 ^ 64 ≤ 1 / 100 by norm_num])
      (by linarith [show (2 : ℚ) ^ 31 / 100 ≤ 2 ^ 64 by norm_num])))
  rw [div_eq_mul_one_div ((P : ℚ) / 100) (2 ^ 53)] at ea
  have hu0 : (0 : ℚ) ≤ 1 / 2 ^ 53 := by positivity
  have hu1 : (1 : ℚ) / 2 ^ 53 ≤ 1 / 2 := by norm_num
  have hsmall3 : (2 : ℚ) ^ 31 * (3 * (1 / 2 ^ 53)) < 1 / 200 := by norm_num
  obtain ⟨u, hu⟩ : ∃ u : ℚ, (1 : ℚ) / 2 ^ 53 = u := ⟨_, rfl⟩
  obtain ⟨x, hx⟩ : ∃ x : ℚ, (P : ℚ) / 100 = x := ⟨_, rfl⟩
  rw [hu] at ea hu0 hu1 hsmall3
  rw [hx] at ea hx0 hx1 hx2
  obtain ⟨ea1, ea2⟩ := abs_le.mp ea
  have hxu : x * u ≤ x * (1 / 2) := mul_le_mul_of_nonneg_left hu1 hx0
  have hvapos : (1 : ℚ) / 200 ≤ va := by linarith
  have hva2 : va ≤ 2 ^ 31 := by linarith [show (2 : ℚ) ^ 31 / 100 * (3 / 2) ≤ 2 ^ 31 by norm_num]
  have hva0 : (0 : ℚ) ≤ va := by linarith
  have hrange : va * S = 0 ∨ ((2 : ℚ) ^ (-900 : Int) ≤ va * S ∧ va * S ≤ (2 : ℚ) ^ (900 : Int)) := by
    rcases Nat.eq_zero_or_pos S with h0 | h0
    · left; rw [h0]; simp
    · right
      have hS1 : (1 : ℚ) ≤ S := by exact_mod_cast h0
      have l1 : va * 1 ≤ va * S := mul_le_mul_of_nonneg_left hS1 hva0
      have l2 : va * S ≤ 2 ^ 31 * 2 ^ 31 := mul_le_mul hva2 hSq hS0 (by positivity)
      exact in_range _ (by linarith [show (1 : ℚ) / 2 ^ 64 ≤ 1 / 200 by norm_num])
        (by linarith [show (2 : ℚ) ^ 31 * 2 ^ 31 ≤ 2 ^ 64 by norm_num])
  obtain ⟨vb, hvb, eb⟩ := mul_val _ _ va (S : ℚ) hva vS hrange
  rw [div_eq_mul_one_div (va * S) (2 ^ 53), hu] at eb
  -- collect the two roundings
  have hW : |va * S - x * S| ≤ x * S * u := by
    have : va * S - x * S = (va - x) * S := by ring
    rw [this, abs_mul, abs_of_nonneg hS0]
    calc |va - x| * S ≤ x * u * S := mul_le_mul_of_nonneg_right ea hS0
      _ = x * S * u := by ring
  have herr := compose_error (x * S) (va * S) vb u hu0 (by linarith) (mul_nonneg hx0 hS0) hW eb
  have hN : ((P * S : Nat) : ℚ) / ((100 : Nat) : ℚ) = x * S := by rw [← hx]; push_cast; ring
  have hNlt : x * S < 2 ^ 31 := by
    have h1 : P * S < 100 * 2 ^ 31 := by omega
    have h2 : ((P * S : Nat) : ℚ) < 100 * 2 ^ 31 := by exact_mod_cast h1
    rw [← hN, div_lt_iff₀ (by norm_num)]
    push_cast at h2 ⊢
    linarith
  have hsmall : ((P * S : Nat) : ℚ) / ((100 : Nat) : ℚ) * (3 * u) < 1 / (2 * ((100 : Nat) : ℚ)) := by
    rw [hN]
    have h3u : (0 : ℚ) ≤ 3 * u := by linarith
    have : x * S * (3 * u) ≤ 2 ^ 31 * (3 * u) := mul_le_mul_of_nonneg_right (le_of_lt hNlt) h3u
    have : (1 : ℚ) / (2 * ((100 : Nat) : ℚ)) = 1 / 200 := by norm_num
    linarith
  rw [← hN] at herr
  have hfl := floor_near (P * S) 100 (by norm_num) vb (3 * u) herr hsmall
  have hvblt : vb < 2 ^ 31 := by
    have hlt : vb < (⌊vb⌋ : ℚ) + 1 := Int.lt_floor_add_one vb
    have hfle : (⌊vb⌋ : ℚ) + 1 ≤ 2 ^ 31 := by
      have : ⌊vb⌋ + 1 ≤ 2 ^ 31 := by
        rcases hfl with h | ⟨h, -, -⟩ <;> omega
      exact_mod_cast this
    linarith
  rw [to_gint_val _ vb hvb hvblt]
  exact hfl

/-! ## Percentage tokens of `parse_dim_string` -/

theorem percent_multiplier_val (P : Nat) (hP2 : P < 2 ^ 31) :
    ∃ v : ℚ, GDouble.Val (GDouble.div (GDouble.of_int (P : Int)) (GDouble.of_int 100)) v := by
  have v100 : GDouble.Val (GDouble.of_int 100) (100 : ℚ) := by
    exact_mod_cast of_int_val 100 (by norm_num)
  have vP := of_int_val P (by omega)
  have hPq2 : (P : ℚ) ≤ 2 ^ 31 := by exact_mod_cast (le_of_lt hP2)
  rcases Nat.eq_zero_or_pos P with h0 | h0
  · obtain ⟨v, hv, -⟩ := div_val _ _ (P : ℚ) (100 : ℚ) vP v100 (by norm_num)
      (Or.inl (by rw [h0]; simp))
    exact ⟨v, hv⟩
  · have hPq : (1 : ℚ) ≤ P := by exact_mod_cast h0
    have hx1 : (1 : ℚ) / 100 ≤ (P : ℚ) / 100 := div_le_div_of_nonneg_right hPq (by norm_num)
    have hx2 : (P : ℚ) / 100 ≤ 2 ^ 31 / 100 := div_le_div_of_nonneg_right hPq2 (by norm_num)
    obtain ⟨v, hv, -⟩ := div_val _ _ (P : ℚ) (100 : ℚ) vP v100 (by norm_num)
      (Or.inr (in_range _ (by linarith [show (1 : ℚ) / 2 ^ 64 ≤ 1 / 100 by norm_num])
        (by linarith [show (2 : ℚ) ^ 31 / 100 ≤ 2 ^ 64 by norm_num])))
    exact ⟨v, hv⟩

theorem percent_multiplier_ne (P : Nat) (hP2 : P < 2 ^ 31) :
    GDouble.eq (GDouble.div (GDouble.of_int (P : Int)) (GDouble.of_int 100)) (GDouble.of_int (-1))
      = false := by
  obtain ⟨v, hv⟩ := percent_multiplier_val P hP2
  exact val_ne_minus_one _ v hv

theorem percent_token_value (P : Nat) (h : P < 2 ^ 31) (h0 : 0 < P) :
    to_gint (g_ascii_strtoll (decimal P ++ ['%']) 0).1 = P :=
  decimal_value P ['%'] h h0 (stops_cons _ _ (by decide))

theorem percent_token_last (stray : Char) (P : Nat) (h : P < 2 ^ 31) :
    char_at stray (decimal P ++ ['%']) ((strnlen (decimal P ++ ['%']) 256 : Int) - 1) = '%' := by
  have hl := (decimal_length P (by omega)).2
  rw [char_at_last stray _ (by simp) (by simp; omega)]
  simp

/-- The loop body of `parse_dim_string` on the width token `P%`. -/
theorem dim_body_percent_width (host : Host) (P : Nat) (h0 : 0 < P) (h : P < 2 ^ 31)
    (m1 : GDouble) (dim : Int × Int) :
    dim_body host 0 (decimal P ++ ['%']) ⟨(GDouble.of_int (-1), m1), dim⟩
      = ⟨(GDouble.div (GDouble.of_int (P : Int)) (GDouble.of_int 100), m1),
          (percent_of P host.screen_width, dim.2)⟩ := by
  have hpos : (0 : Int) < P := by omega
  unfold dim_body
  simp only [percent_token_value P h h0, percent_token_last host.stray P h, hpos, and_self,
    true_or, if_true, get2, set2, percent_multiplier_ne P h, Bool.false_eq_true, if_false,
    percent_of]

/-- The loop body of `parse_dim_string` on the height token `Q%`. -/
theorem dim_body_percent_height (host : Host) (Q : Nat) (h0 : 0 < Q) (h : Q < 2 ^ 31)
    (m : GDouble × GDouble) (dim : Int × Int) :
    dim_body host 1 (decimal Q ++ ['%']) ⟨m, dim⟩
      = ⟨(m.1, GDouble.div (GDouble.of_int (Q : Int)) (GDouble.of_int 100)),
          (dim.1, percent_of Q host.screen_height)⟩ := by
  unfold dim_body
  simp only [percent_token_value Q h h0, percent_token_last host.stray Q h, or_true, if_true,
    get2, set2, percent_multiplier_ne Q h, Bool.false_eq_true, if_false, percent_of,
    one_ne_zero]

/-- The loop body of `parse_dim_string` on a height token that does not end in
`%`, after a width given as a percentage: the height inherits the width's
multiplier. -/
theorem dim_body_inherit (host : Host) (H : List Char) (hne : H ≠ []) (hlen : H.length ≤ 256)
    (hlast : H.getLast hne ≠ '%') (m0 m1 : GDouble)
    (hm : GDouble.eq m0 (GDouble.of_int (-1)) = false) (dim : Int × Int) :
    dim_body host 1 H ⟨(m0, m1), dim⟩
      = ⟨(m0, m0), (dim.1, GDouble.to_gint (GDouble.mul m0 (GDouble.of_int host.screen_height)))⟩ := by
  have hc := char_at_last host.stray H hne hlen
  unfold dim_body
  simp only [hc, hlast, or_true, if_true, if_false, get2, set2, hm, one_ne_zero,
    Bool.false_eq_true, not_false_eq_true, and_self]

theorem dim_body_keeps_height (host : Host) (tok : List Char) (st : DimState) :
    (dim_body host 0 tok st).dim.2 = st.dim.2 := by
  unfold dim_body
  simp only [set2, if_true, zero_ne_one, or_false, true_and, false_and, if_false]
  split_ifs <;> rfl

/-- Without an `x` the height stays unset and the parse fails. -/
theorem dim_string_no_separator (host : Host) (s : List Char) (h : ∀ c ∈ s, c ≠ 'x') :
    (parse_dim_string host s).1 = false ∧ (parse_dim_string host s).2.2 = -1 := by
  have hh : (parse_dim_string host s).2.2 = -1 := by
    unfold parse_dim_string
    by_cases hs : s = []
    · subst hs; rfl
    · rw [strsplit_one s hs h]
      simp only [dim_loop, Nat.ofNat_pos, if_true]
      exact dim_body_keeps_height host s _
  refine ⟨?_, hh⟩
  have hrc : (parse_dim_string host s).1
      = decide (0 < (parse_dim_string host s).2.1 ∧ 0 < (parse_dim_string host s).2.2) := rfl
  rw [hrc, hh]
  simp

/-- The empty height segment of `50%x`: the test for `%` reads the byte in
front of the token, and the result depends on it. -/
theorem dim_string_empty_height (stray : Char) :
    parse_dim_string ⟨1920, 1080, stray⟩ "50%x".toList
      = if stray = '%' then (false, (960, 0)) else (true, (960, 540)) := by
  have htok : g_strsplit_x "50%x".toList 2 = [decimal 50 ++ ['%'], []] := by decide
  have hw : percent_of ((50 : Nat) : Int) 1920 = 960 := by decide
  have hm : GDouble.eq (GDouble.div (GDouble.of_int ((50 : Nat) : Int)) (GDouble.of_int 100))
      (GDouble.of_int (-1)) = false := by decide
  have hz : GDouble.eq (GDouble.div (GDouble.of_int (to_gint (g_ascii_strtoll [] 0).1))
      (GDouble.of_int 100)) (GDouble.of_int (-1)) = false := by decide
  have hzero : GDouble.to_gint (GDouble.mul (GDouble.div
      (GDouble.of_int (to_gint (g_ascii_strtoll [] 0).1)) (GDouble.of_int 100))
      (GDouble.of_int 1080)) = 0 := by decide
  have hhalf : GDouble.to_gint (GDouble.mul
      (GDouble.div (GDouble.of_int ((50 : Nat) : Int)) (GDouble.of_int 100))
      (GDouble.of_int 1080)) = 540 := by decide
  have hc : char_at stray [] ((strnlen [] 256 : Int) - 1) = stray := rfl
  unfold parse_dim_string
  rw [htok]
  simp only [dim_loop, Nat.ofNat_pos, if_true, zero_add, Nat.one_lt_ofNat]
  rw [dim_body_percent_width _ 50 (by decide) (by decide), hw]
  unfold dim_body
  by_cases h : stray = '%'
  · simp only [hc, h, or_true, if_true, get2, set2, one_ne_zero, if_false, hz,
      Bool.false_eq_true, hzero]
    rfl
  · simp only [hc, h, or_true, if_true, get2, set2, one_ne_zero, if_false, hm,
      Bool.false_eq_true, hhalf, not_false_eq_true, and_self]
    rfl

/-! ## The scale ratio of `handle_autofit` -/

/-- The quotient `c / v` of two converted integers, `v` positive and both
below `2 ^ 31`, is finite and within the relative error `2 ^ -53`. -/
theorem quotient_val (c v : Nat) (hc : c < 2 ^ 31) (hv0 : 0 < v) (hv : v < 2 ^ 31) :
    ∃ q : ℚ, GDouble.Val (GDouble.div (GDouble.of_int (c : Int)) (GDouble.of_int (v : Int))) q ∧
      |q - (c : ℚ) / v| ≤ (c : ℚ) / v * (1 / 2 ^ 53) := by
  have hvq : (0 : ℚ) < v := by exact_mod_cast hv0
  have hv1 : (1 : ℚ) ≤ v := by exact_mod_cast hv0
  have hv2 : (v : ℚ) ≤ 2 ^ 31 := by exact_mod_cast (le_of_lt hv)
  have hc2 : (c : ℚ) ≤ 2 ^ 31 := by exact_mod_cast (le_of_lt hc)
  have hr : (c : ℚ) = 0 ∨ ((2 : ℚ) ^ (-900 : Int) ≤ (c : ℚ) / v ∧ (c : ℚ) / v ≤ (2 : ℚ) ^ (900 : Int)) := by
    rcases Nat.eq_zero_or_pos c with h0 | h0
    · left; rw [h0]; simp
    · right
      have hc1 : (1 : ℚ) ≤ c := by exact_mod_cast h0
      apply in_range
      · rw [le_div_iff₀ hvq]
        linarith [show (1 : ℚ) / 2 ^ 64 * v ≤ 1 / 2 ^ 64 * 2 ^ 31 from
          mul_le_mul_of_nonneg_left hv2 (by positivity),
          show (1 : ℚ) / 2 ^ 64 * 2 ^ 31 ≤ 1 by norm_num]
      · rw [div_le_iff₀ hvq]
        linarith [show (2 : ℚ) ^ 64 * 1 ≤ 2 ^ 64 * v from
          mul_le_mul_of_nonneg_left hv1 (by positivity),
          show (2 : ℚ) ^ 31 ≤ 2 ^ 64 * 1 by norm_num]
  obtain ⟨q, hq, e⟩ := div_val _ _ (c : ℚ) (v : ℚ) (of_int_val c (by omega)) (of_int_val v (by omega))
    hvq hr
  rw [div_eq_mul_one_div ((c : ℚ) / v) (2 ^ 53)] at e
  exact ⟨q, hq, e⟩

/-- The ratio `MIN (a, b)` of two rounded quotients is within the relative
error `u` of the smaller exact quotient. -/
theorem min_val (a b : GDouble) (va vb xa xb u : ℚ) (ha : GDouble.Val a va)
    (hb : GDouble.Val b vb) (hu1 : u ≤ 1)
    (ea : |va - xa| ≤ xa * u) (eb : |vb - xb| ≤ xb * u) :
    ∃ vr : ℚ, GDouble.Val (MIN a b) vr ∧ |vr - min xa xb| ≤ min xa xb * u := by
  obtain ⟨a1, a2⟩ := abs_le.mp ea
  obtain ⟨b1, b2⟩ := abs_le.mp eb
  have hlt := lt_val a b va vb ha hb
  unfold MIN
  by_cases h : va < vb
  · rw [if_pos (hlt.mpr h)]
    refine ⟨va, ha, ?_⟩
    rcases le_total xa xb with hab | hab
    · rw [min_eq_left hab]; exact ea
    · rw [min_eq_right hab, abs_le]
      have : xb * (1 - u) ≤ xa * (1 - u) := mul_le_mul_of_nonneg_right hab (by linarith)
      constructor <;> linarith
  · have hn : ¬ (GDouble.lt a b = true) := fun hc => h (hlt.mp hc)
    rw [if_neg hn]
    refine ⟨vb, hb, ?_⟩
    push_neg at h
    rcases le_total xb xa with hab | hab
    · rw [min_eq_right hab]; exact eb
    · rw [min_eq_left hab, abs_le]
      have : xa * (1 - u) ≤ xb * (1 - u) := mul_le_mul_of_nonneg_right hab (by linarith)
      constructor <;> linarith

/-- The output `(gint64)(ratio * v)` for a ratio within `2 ^ -53` of the exact
`x`, where `x * v` is the fraction `N / D`: the integer part of `x * v`, or
one less when `x * v` is a positive integer. -/
theorem scaled_output (r : GDouble) (vr x : ℚ) (hr : GDouble.Val r vr) (hx0 : 0 ≤ x)
    (herr : |vr - x| ≤ x * (1 / 2 ^ 53)) (v N D : Nat) (hT : x * v = (N : ℚ) / D)
    (hD : 0 < D) (hD2 : D < 2 ^ 19) (hN : (N : ℚ) / D < 2 ^ 31) (hv0 : 0 < v) (hv : v < 2 ^ 19)
    (hx : x = 0 ∨ (1 : ℚ) / 2 ^ 19 ≤ x) (hx2 : x ≤ 2 ^ 31) :
    GDouble.to_gint64 (GDouble.mul r (GDouble.of_int (v : Int))) = ⌊x * v⌋ ∨
    (GDouble.to_gint64 (GDouble.mul r (GDouble.of_int (v : Int))) = ⌊x * v⌋ - 1 ∧
      0 < ⌊x * v⌋ ∧ ((⌊x * v⌋ : Int) : ℚ) = x * v) := by
  have hu0 : (0 : ℚ) ≤ 1 / 2 ^ 53 := by positivity
  have hu1 : (1 : ℚ) / 2 ^ 53 ≤ 1 / 2 := by norm_num
  have hsmall3 : (2 : ℚ) ^ 31 * (3 * (1 / 2 ^ 53)) < 1 / 2 ^ 20 := by norm_num
  obtain ⟨u, hu⟩ : ∃ u : ℚ, (1 : ℚ) / 2 ^ 53 = u := ⟨_, rfl⟩
  rw [hu] at herr hu0 hu1 hsmall3
  obtain ⟨e1, e2⟩ := abs_le.mp herr
  have hvq1 : (1 : ℚ) ≤ v := by exact_mod_cast hv0
  have hvq2 : (v : ℚ) ≤ 2 ^ 19 := by exact_mod_cast (le_of_lt hv)
  have hvq0 : (0 : ℚ) ≤ v := by positivity
  have hxu : x * u ≤ x * (1 / 2) := mul_le_mul_of_nonneg_left hu1 hx0
  have hvr0 : 0 ≤ vr := by linarith
  have hvr2 : vr ≤ 2 ^ 32 := by linarith
  have hrange : vr * v = 0 ∨ ((2 : ℚ) ^ (-900 : Int) ≤ vr * v ∧ vr * v ≤ (2 : ℚ) ^ (900 : Int)) := by
    rcases hx with h0 | h0
    · left
      have : vr = 0 := by rw [h0] at e1 e2; simp at e1 e2; linarith
      rw [this]; simp
    · right
      have l0 : (1 : ℚ) / 2 ^ 20 ≤ vr := by
        linarith [show (1 : ℚ) / 2 ^ 19 * (1 / 2) = 1 / 2 ^ 20 by norm_num]
      have l1 : vr * 1 ≤ vr * v := mul_le_mul_of_nonneg_left hvq1 hvr0
      have l2 : vr * v ≤ 2 ^ 32 * 2 ^ 19 := mul_le_mul hvr2 hvq2 hvq0 (by positivity)
      exact in_range _ (by linarith [show (1 : ℚ) / 2 ^ 64 ≤ 1 / 2 ^ 20 by norm_num])
        (by linarith [show (2 : ℚ) ^ 32 * 2 ^ 19 ≤ 2 ^ 64 by norm_num])
  obtain ⟨vo, hvo, eo⟩ := mul_val _ _ vr (v : ℚ) hr (of_int_val v (by omega)) hrange
  rw [div_eq_mul_one_div (vr * v) (2 ^ 53), hu] at eo
  have hW : |vr * v - x * v| ≤ x * v * u := by
    have : vr * v - x * v = (vr - x) * v := by ring
    rw [this, abs_mul, abs_of_nonneg hvq0]
    calc |vr - x| * v ≤ x * u * v := mul_le_mul_of_nonneg_right herr hvq0
      _ = x * v * u := by ring
  have hcomp := compose_error (x * v) (vr * v) vo u hu0 (by linarith) (mul_nonneg hx0 hvq0) hW eo
  rw [hT] at hcomp
  have hDq : (0 : ℚ) < D := by exact_mod_cast hD
  have hDq2 : (D : ℚ) ≤ 2 ^ 19 := by exact_mod_cast (le_of_lt hD2)
  have hN0 : (0 : ℚ) ≤ (N : ℚ) / D := by positivity
  have hsmall : (N : ℚ) / D * (3 * u) < 1 / (2 * D) := by
    have h3u : (0 : ℚ) ≤ 3 * u := by linarith
    have l1 : (N : ℚ) / D * (3 * u) ≤ 2 ^ 31 * (3 * u) := mul_le_mul_of_nonneg_right (le_of_lt hN) h3u
    have l2 : (1 : ℚ) / 2 ^ 20 ≤ 1 / (2 * D) := by
      rw [div_le_div_iff₀ (by positivity) (by positivity)]
      linarith
    linarith
  have hfl := floor_near N D hD vo (3 * u) hcomp hsmall
  have hfloor : ⌊x * v⌋ = ((N / D : Nat) : Int) := by
    rw [hT, Rat.floor_natCast_div_natCast]
    rfl
  have hklt : ((N / D : Nat) : ℚ) < 2 ^ 31 := by
    have : ((N / D : Nat) : ℚ) ≤ (N : ℚ) / D := Nat.cast_div_le
    linarith
  have hklt' : N / D < 2 ^ 31 := by exact_mod_cast hklt
  have hvolt : vo < 2 ^ 63 := by
    have hlt : vo < (⌊vo⌋ : ℚ) + 1 := Int.lt_floor_add_one vo
    have hfle : (⌊vo⌋ : ℚ) + 1 ≤ 2 ^ 31 := by
      have : ⌊vo⌋ + 1 ≤ 2 ^ 31 := by
        rcases hfl with h | ⟨h, -, -⟩ <;> omega
      exact_mod_cast this
    linarith [show (2 : ℚ) ^ 31 ≤ 2 ^ 63 by norm_num]
  rw [to_gint64_val _ vo hvo hvolt, hfloor]
  rcases hfl with h | ⟨h, hmod, hpos⟩
  · exact Or.inl h
  · right
    have hdvd : D ∣ N := Nat.dvd_of_mod_eq_zero hmod
    have hk : 0 < N / D := Nat.div_pos (Nat.le_of_dvd hpos hdvd) hD
    refine ⟨h, by exact_mod_cast hk, ?_⟩
    rw [hT]
    rw [Int.cast_natCast]
    exact Nat.cast_div hdvd (ne_of_gt hDq)

/-- The exact scaled extent `min (c / v) (c' / v') * v` as a fraction with a
small denominator. -/
theorem axis_fraction (c v c' v' : Nat) (hv0 : 0 < v) (hv0' : 0 < v') (hv' : v' < 2 ^ 19) :
    ∃ N D : Nat, 0 < D ∧ D < 2 ^ 19 ∧
      min ((c : ℚ) / v) ((c' : ℚ) / v') * v = (N : ℚ) / D ∧ (N : ℚ) / D ≤ c := by
  have hvq : (0 : ℚ) < v := by exact_mod_cast hv0
  have hvq' : (0 : ℚ) < v' := by exact_mod_cast hv0'
  rcases le_total ((c : ℚ) / v) ((c' : ℚ) / v') with h | h
  · refine ⟨c, 1, by norm_num, by norm_num, ?_, by simp⟩
    rw [min_eq_left h, div_mul_cancel₀ _ (ne_of_gt hvq)]
    simp
  · refine ⟨c' * v, v', hv0', hv', ?_, ?_⟩
    · rw [min_eq_right h]
      push_cast
      field_simp
    · have : (c' : ℚ) / v' * v ≤ (c : ℚ) / v * v := mul_le_mul_of_nonneg_right h (le_of_lt hvq)
      rw [div_mul_cancel₀ _ (ne_of_gt hvq)] at this
      have e : ((c' * v : Nat) : ℚ) / v' = (c' : ℚ) / v' * v := by push_cast; field_simp
      rw [e]
      exact this

theorem min_quotient_range (c v c' v' : Nat) (hc : c < 2 ^ 31) (hv0 : 0 < v) (hv0' : 0 < v')
    (hv : v < 2 ^ 19) (hv' : v' < 2 ^ 19) :
    0 ≤ min ((c : ℚ) / v) ((c' : ℚ) / v') ∧
    (min ((c : ℚ) / v) ((c' : ℚ) / v') = 0 ∨ (1 : ℚ) / 2 ^ 19 ≤ min ((c : ℚ) / v) ((c' : ℚ) / v')) ∧
    min ((c : ℚ) / v) ((c' : ℚ) / v') ≤ 2 ^ 31 := by
  have hvq : (0 : ℚ) < v := by exact_mod_cast hv0
  have hvq' : (0 : ℚ) < v' := by exact_mod_cast hv0'
  have hv1 : (1 : ℚ) ≤ v := by exact_mod_cast hv0
  have hvq2 : (v : ℚ) ≤ 2 ^ 19 := by exact_mod_cast (le_of_lt hv)
  have hvq2' : (v' : ℚ) ≤ 2 ^ 19 := by exact_mod_cast (le_of_lt hv')
  have hcq : (c : ℚ) ≤ 2 ^ 31 := by exact_mod_cast (le_of_lt hc)
  have low : ∀ (a b : Nat), 0 < a → 0 < b → (b : ℚ) ≤ 2 ^ 19 → (1 : ℚ) / 2 ^ 19 ≤ (a : ℚ) / b := by
    intro a b ha hb hb2
    have ha1 : (1 : ℚ) ≤ a := by exact_mod_cast ha
    have hbq : (0 : ℚ) < b := by exact_mod_cast hb
    rw [div_le_div_iff₀ (by positivity) hbq]
    linarith
  refine ⟨le_min (by positivity) (by positivity), ?_, ?_⟩
  · rcases Nat.eq_zero_or_pos c with h0 | h0
    · left
      rw [h0]
      simp only [Nat.cast_zero, zero_div]
      exact min_eq_left (by positivity)
    · rcases Nat.eq_zero_or_pos c' with h0' | h0'
      · left
        rw [h0']
        simp only [Nat.cast_zero, zero_div]
        exact min_eq_right (by positivity)
      · right
        exact le_min (low c v h0 hv0 hvq2) (low c' v' h0' hv0' hvq2')
  · have : (c : ℚ) / v ≤ c := div_le_self (by positivity) hv1
    exact le_trans (min_le_left _ _) (le_trans this hcq)

/-! ## The claims -/

/-- C1 (the position section never influences the dimensions `parse_geom_string`
produces): on a 1920x1080 screen the geometry string `50%x25%+10+20` gets the
dimensions 960x540, while `parse_dim_string` on the dimension section `50%x25%`
alone gives 960x270.  The whole string is handed to `parse_dim_string`, so the
height token is `25%+10+20`, which does not end in `%`. -/
theorem geom_string_position_changes_height :
    (parse_geom_string host0 (some ("50%x25%".toList ++ "+10+20".toList)) (false, false)
        (GValue.unset, GValue.unset) (0, 0)).2.2 = (960, 540) ∧
    (parse_dim_string host0 "50%x25%".toList).2 = (960, 270) := by
  decide

/-- C2, as stated, fails: the width `2147483648` does not fit the `gint` the
parsed value is stored in, and `2147483648x600` is rejected with the width
left unset. -/
theorem dim_string_literal_overflow :
    parse_dim_string host0 (decimal 2147483648 ++ 'x' :: decimal 600) = (false, (-1, 600)) := by
  decide

/-- C2, amended: for positive integers `W` and `H` below `2 ^ 31` and every
screen, `parse_dim_string` on the decimal literal of `W`, an `x` and the
decimal literal of `H` succeeds and returns width `W` and height `H`. -/
theorem dim_string_literal_exact (host : Host) (W H : Nat) (hW : 0 < W) (hW2 : W < 2 ^ 31)
    (hH : 0 < H) (hH2 : H < 2 ^ 31) :
    parse_dim_string host (decimal W ++ 'x' :: decimal H) = (true, ((W : Int), (H : Int))) :=
  dim_string_literal host W H hW hW2 hH hH2

theorem dim_string_literal_exact_witness :
    parse_dim_string host0 (decimal 800 ++ 'x' :: decimal 600) = (true, (((800 : Nat) : Int), ((600 : Nat) : Int))) :=
  dim_string_literal_exact host0 800 600 (by decide) (by decide) (by decide) (by decide)

/-- C3, as stated, fails.  On a 2560x1440 screen `35%x600` gets the height 503,
not the 504 that is 35/100 of 1440: the product `(35/100.0)*1440` is rounded
to the `gdouble` just below 504 before it is truncated.  The percentage
`2147483648` does not fit a `gint`, and the width of `2147483648%x600` stays
unset.  With an empty height segment the test for `%` reads the byte in front
of the token, and when that byte is `%` the height of `50%x` is 0. -/
theorem dim_string_inherit_inexact :
    parse_dim_string ⟨2560, 1440, '\x00'⟩ "35%x600".toList = (true, (896, 503)) ∧
    (35 * 1440 / 100 : Nat) = 504 ∧
    parse_dim_string host0 "2147483648%x600".toList = (false, (-1, 600)) ∧
    parse_dim_string ⟨1920, 1080, '%'⟩ "50%x".toList = (false, (960, 0)) := by
  decide

/-- C3, amended: for a width percentage `0 < P < 2 ^ 31`, a height segment `H`
that is not empty, has at most 256 characters and does not end in `%`, and a
screen `sw x sh` on which `P` percent is below `2 ^ 31`, `parse_dim_string` on
`P%xH` sets the width to `⌊P * sw / 100⌋` and the height to `⌊P * sh / 100⌋`,
whatever `H` is, each possibly one less when the quotient is a positive
integer (the products are computed in `gdouble`), and succeeds exactly when
both are positive.  A string `s` without `x` leaves the height unset (`-1`)
and fails. -/
theorem dim_string_inherit (sw sh : Nat) (stray : Char) (P : Nat) (H : List Char)
    (hP : 0 < P) (hP2 : P < 2 ^ 31) (hH : H ≠ []) (hlen : H.length ≤ 256)
    (hlast : H.getLast? ≠ some '%') (hsw : sw < 2 ^ 31) (hsh : sh < 2 ^ 31)
    (hw : P * sw / 100 < 2 ^ 31) (hh : P * sh / 100 < 2 ^ 31)
    (host : Host) (s : List Char) (hs : ∀ c ∈ s, c ≠ 'x') :
    (∃ w h : Int,
      parse_dim_string ⟨sw, sh, stray⟩ (decimal P ++ "%x".toList ++ H)
        = (decide (0 < w ∧ 0 < h), (w, h)) ∧
      (w = ((P * sw / 100 : Nat) : Int) ∨
        (w = ((P * sw / 100 : Nat) : Int) - 1 ∧ P * sw % 100 = 0 ∧ 0 < P * sw)) ∧
      (h = ((P * sh / 100 : Nat) : Int) ∨
        (h = ((P * sh / 100 : Nat) : Int) - 1 ∧ P * sh % 100 = 0 ∧ 0 < P * sh))) ∧
    ((parse_dim_string host s).1 = false ∧ (parse_dim_string host s).2.2 = -1) := by
  refine ⟨?_, dim_string_no_separator host s hs⟩
  have hstr : decimal P ++ "%x".toList ++ H = (decimal P ++ ['%']) ++ 'x' :: H := by
    show decimal P ++ ['%', 'x'] ++ H = _
    simp
  have hnox : ∀ c ∈ decimal P ++ ['%'], c ≠ 'x' := by
    intro c hc
    rw [List.mem_append, List.mem_singleton] at hc
    rcases hc with hc | hc
    · exact decimal_no_x P c hc
    · subst hc; decide
  have hl : H.getLast hH ≠ '%' := by
    intro h
    apply hlast
    rw [List.getLast?_eq_getLast _ hH, h]
  refine ⟨percent_of P sw, percent_of P sh, ?_, percent_pixels P sw hP hP2 hsw hw,
    percent_pixels P sh hP hP2 hsh hh⟩
  unfold parse_dim_string
  rw [hstr, strsplit_two _ _ hnox]
  simp only [dim_loop, Nat.ofNat_pos, if_true, zero_add, Nat.one_lt_ofNat]
  rw [dim_body_percent_width _ P hP hP2,
    dim_body_inherit _ H hH hlen hl _ _ (percent_multiplier_ne P hP2)]
  rfl

theorem dim_string_inherit_witness :
    (∃ w h : Int,
      parse_dim_string ⟨(1920 : Nat), (1080 : Nat), '\x00'⟩ (decimal 50 ++ "%x".toList ++ "30".toList)
        = (decide (0 < w ∧ 0 < h), (w, h)) ∧
      (w = ((50 * 1920 / 100 : Nat) : Int) ∨
        (w = ((50 * 1920 / 100 : Nat) : Int) - 1 ∧ 50 * 1920 % 100 = 0 ∧ 0 < 50 * 1920)) ∧
      (h = ((50 * 1080 / 100 : Nat) : Int) ∨
        (h = ((50 * 1080 / 100 : Nat) : Int) - 1 ∧ 50 * 1080 % 100 = 0 ∧ 0 < 50 * 1080))) ∧
    ((parse_dim_string host0 "50%".toList).1 = false ∧
      (parse_dim_string host0 "50%".toList).2.2 = -1) :=
  dim_string_inherit 1920 1080 '\x00' 50 "30".toList (by decide) (by decide) (by decide)
    (by decide) (by decide) (by decide) (by decide) (by decide) (by decide)
    host0 "50%".toList (by decide)

/-- C4, as stated, fails: on a 2560x1440 screen `35%x35%` gets the height 503,
while 35/100 of 1440 is 504 exactly; the `gdouble` nearest to 0.35 is below
0.35 and the product is rounded to the `gdouble` just below 504. -/
theorem dim_string_percent_inexact :
    parse_dim_string ⟨2560, 1440, '\x00'⟩ "35%x35%".toList = (true, (896, 503)) ∧
    (35 * 1440 / 100 : Nat) = 504 := by
  decide

/-- C4, amended: for percentages `0 < P, Q < 2 ^ 31` and a screen `sw x sh`
(both below `2 ^ 31`) on which the results are below `2 ^ 31`,
`parse_dim_string` on `P%xQ%` yields the width `⌊P * sw / 100⌋` and the height
`⌊Q * sh / 100⌋`, each possibly one less when the quotient is a positive
integer (the products are computed in `gdouble`), and reports success exactly
when both results are strictly positive. -/
theorem dim_string_percent (sw sh : Nat) (stray : Char) (P Q : Nat)
    (hP : 0 < P) (hP2 : P < 2 ^ 31) (hQ : 0 < Q) (hQ2 : Q < 2 ^ 31)
    (hsw : sw < 2 ^ 31) (hsh : sh < 2 ^ 31)
    (hw : P * sw / 100 < 2 ^ 31) (hh : Q * sh / 100 < 2 ^ 31) :
    ∃ w h : Int,
      parse_dim_string ⟨sw, sh, stray⟩ (decimal P ++ "%x".toList ++ decimal Q ++ "%".toList)
        = (decide (0 < w ∧ 0 < h), (w, h)) ∧
      (w = ((P * sw / 100 : Nat) : Int) ∨
        (w = ((P * sw / 100 : Nat) : Int) - 1 ∧ P * sw % 100 = 0 ∧ 0 < P * sw)) ∧
      (h = ((Q * sh / 100 : Nat) : Int) ∨
        (h = ((Q * sh / 100 : Nat) : Int) - 1 ∧ Q * sh % 100 = 0 ∧ 0 < Q * sh)) := by
  have hstr : decimal P ++ "%x".toList ++ decimal Q ++ "%".toList
      = (decimal P ++ ['%']) ++ 'x' :: (decimal Q ++ ['%']) := by
    show decimal P ++ ['%', 'x'] ++ decimal Q ++ ['%'] = _
    simp
  have hnox : ∀ c ∈ decimal P ++ ['%'], c ≠ 'x' := by
    intro c hc
    rw [List.mem_append, List.mem_singleton] at hc
    rcases hc with hc | hc
    · exact decimal_no_x P c hc
    · subst hc; decide
  refine ⟨percent_of P sw, percent_of Q sh, ?_, percent_pixels P sw hP hP2 hsw hw,
    percent_pixels Q sh hQ hQ2 hsh hh⟩
  unfold parse_dim_string
  rw [hstr, strsplit_two _ _ hnox]
  simp only [dim_loop, Nat.ofNat_pos, if_true, zero_add, Nat.one_lt_ofNat]
  rw [dim_body_percent_width _ P hP hP2, dim_body_percent_height _ Q hQ hQ2]

theorem dim_string_percent_witness :
    ∃ w h : Int,
      parse_dim_string ⟨(2560 : Nat), (1440 : Nat), '\x00'⟩
          (decimal 35 ++ "%x".toList ++ decimal 35 ++ "%".toList)
        = (decide (0 < w ∧ 0 < h), (w, h)) ∧
      (w = ((35 * 2560 / 100 : Nat) : Int) ∨
        (w = ((35 * 2560 / 100 : Nat) : Int) - 1 ∧ 35 * 2560 % 100 = 0 ∧ 0 < 35 * 2560)) ∧
      (h = ((35 * 1440 / 100 : Nat) : Int) ∨
        (h = ((35 * 1440 / 100 : Nat) : Int) - 1 ∧ 35 * 1440 % 100 = 0 ∧ 0 < 35 * 1440)) :=
  dim_string_percent 2560 1440 '\x00' 35 35 (by decide) (by decide) (by decide) (by decide)
    (by decide) (by decide) (by decide) (by decide)

/-- C5, as stated, fails: `0x600` and `-5x600` are reported as failures, but
the height output is set to the usable value 600. -/
theorem dim_string_nonpositive_width_partial :
    parse_dim_string host0 "0x600".toList = (false, (-1, 600)) ∧
    parse_dim_string host0 "-5x600".toList = (false, (-1, 600)) := by
  decide

/-- C5, amended: when the width segment (the first token) of a dimension string
has a value that is zero or negative, `parse_dim_string` reports failure and
leaves the width output at `-1`. -/
theorem dim_string_nonpositive_width (host : Host) (s : List Char)
    (h : to_gint (g_ascii_strtoll ((g_strsplit_x s 2).headD []) 0).1 ≤ 0) :
    (parse_dim_string host s).1 = false ∧ (parse_dim_string host s).2.1 = -1 := by
  have hw : (parse_dim_string host s).2.1 = -1 := by
    unfold parse_dim_string
    cases htok : g_strsplit_x s 2 with
    | nil => rfl
    | cons tok rest =>
      rw [htok] at h
      simp only [List.headD_cons] at h
      simp only [dim_loop, Nat.ofNat_pos, if_true, zero_add]
      rw [dim_body_rejects_width host tok _ h, dim_loop_keeps_width host rest 1 _ (le_refl 1)]
  refine ⟨?_, hw⟩
  have hrc : (parse_dim_string host s).1
      = decide (0 < (parse_dim_string host s).2.1 ∧ 0 < (parse_dim_string host s).2.2) := rfl
  rw [hrc, hw]
  simp

theorem dim_string_nonpositive_width_witness :
    (parse_dim_string host0 "-5x600".toList).1 = false ∧
    (parse_dim_string host0 "-5x600".toList).2.1 = -1 :=
  dim_string_nonpositive_width host0 "-5x600".toList (by decide)

/-- C6, as stated, fails: `9223372036854775808` is not a `gint64`, and
`g_ascii_strtoll` returns `G_MAXINT64` for it, so `x` is not `X`. -/
theorem pos_string_overflow :
    parse_pos_string ('+' :: (decimal 9223372036854775808 ++ '+' :: decimal 0)) (false, false)
        (GValue.unset, GValue.unset)
      = (true, (false, false), (GValue.int64 9223372036854775807, GValue.int64 0)) := by
  decide

/-- C6, amended: for non-negative integers `X` and `Y` below `2 ^ 63`,
`parse_pos_string` on `+X+Y` succeeds with `x = X`, `y = Y` and neither axis
flipped, and on `-X-Y` succeeds with `x = X`, `y = Y` and both axes flipped. -/
theorem pos_string_signed (X Y : Nat) (hX : X < 2 ^ 63) (hY : Y < 2 ^ 63)
    (flip : Bool × Bool) (pos : GValue × GValue) :
    parse_pos_string ('+' :: (decimal X ++ '+' :: decimal Y)) flip pos
      = (true, (false, false), (GValue.int64 X, GValue.int64 Y)) ∧
    parse_pos_string ('-' :: (decimal X ++ '-' :: decimal Y)) flip pos
      = (true, (true, true), (GValue.int64 X, GValue.int64 Y)) := by
  have hp : digit_value '+' = none := by decide
  have hm : digit_value '-' = none := by decide
  have y1 := pos_token_signed '+' (by decide) Y [] hY stops_nil (by simp) pos.2
  have y2 := pos_token_signed '-' (by decide) Y [] hY stops_nil (by simp) pos.2
  rw [List.append_nil] at y1 y2
  constructor
  · have x1 := pos_token_signed '+' (by decide) X ('+' :: decimal Y) hX (stops_cons _ _ hp)
      (by simp) pos.1
    unfold parse_pos_string
    rw [x1]
    simp only [if_true, y1]
    simp
  · have x2 := pos_token_signed '-' (by decide) X ('-' :: decimal Y) hX (stops_cons _ _ hm)
      (by simp) pos.1
    unfold parse_pos_string
    rw [x2]
    simp only [if_true, y2]
    simp

theorem pos_string_signed_witness :
    parse_pos_string ('+' :: (decimal 10 ++ '+' :: decimal 20)) (false, false)
        (GValue.unset, GValue.unset)
      = (true, (false, false), (GValue.int64 (10 : Nat), GValue.int64 (20 : Nat))) ∧
    parse_pos_string ('-' :: (decimal 10 ++ '-' :: decimal 20)) (false, false)
        (GValue.unset, GValue.unset)
      = (true, (true, true), (GValue.int64 (10 : Nat), GValue.int64 (20 : Nat))) :=
  pos_string_signed 10 20 (by decide) (by decide) (false, false) (GValue.unset, GValue.unset)

/-- C7, as stated, fails: `+-10` is accepted, its sign prefix `+-` ends in `-`,
and the flip flag is false; `-+10` is accepted, its prefix ends in `+`, and the
flag is true. -/
theorem pos_token_flip_not_last :
    parse_pos_token "+-10".toList GValue.unset = (true, [], GValue.int64 (-10), false) ∧
    parse_pos_token "-+10".toList GValue.unset = (true, [], GValue.int64 10, true) := by
  decide

/-- C7, amended: for every position component that `parse_pos_token` accepts,
the flip flag is true if and only if the first character of the component (the
first character of its sign prefix) is `-`. -/
theorem pos_token_flip_first (iter : List Char) (value : GValue)
    (h : (parse_pos_token iter value).1 = true) :
    (parse_pos_token iter value).2.2.2 = true ↔ iter.head? = some '-' := by
  unfold parse_pos_token at h ⊢
  unfold parse_pos_token_prefix at h ⊢
  by_cases hn : (iter.takeWhile is_sign).length ≤ 2
  · simp only [hn, if_true, decide_eq_true_eq]
    cases iter with
    | nil => simp
    | cons c t =>
      by_cases hc : is_sign c = true
      · have h1 : 1 ≤ (List.takeWhile is_sign (c :: t)).length := by
          simp [List.takeWhile_cons, hc]
        have h2 : ∃ k, (if (List.takeWhile is_sign (c :: t)).length = 2
            then (List.takeWhile is_sign (c :: t)).length - 1
            else (List.takeWhile is_sign (c :: t)).length) = k + 1 := by
          split
          · exact ⟨0, by omega⟩
          · exact ⟨(List.takeWhile is_sign (c :: t)).length - 1, by omega⟩
        obtain ⟨k, hk⟩ := h2
        rw [hk]
        simp
      · have h0 : List.takeWhile is_sign (c :: t) = [] := by
          simp [List.takeWhile_cons, hc]
        have hne : c ≠ '-' := by
          intro hcm
          subst hcm
          exact hc (by decide)
        simp [h0, hne]
  · simp only [hn, if_false] at h
    simp at h

theorem pos_token_flip_first_witness :
    (parse_pos_token "+-10".toList GValue.unset).2.2.2 = true ↔ "+-10".toList.head? = some '-' :=
  pos_token_flip_first "+-10".toList GValue.unset (by decide)

/-- C8 (a geometry string that gives only one axis emits no move event): for
the geometry string `+10` the position parser reports failure, the Y token
being absent, and `handle_geometry` still emits a window-move event, to
`x = 10`, `y = 0`. -/
theorem geometry_one_axis_moves :
    (parse_pos_string "+10".toList (false, false) (GValue.unset, GValue.unset)).1 = false ∧
    handle_geometry host0 { mpv0 with geometry := some "+10".toList }
      = [Signal.window_move false false (GValue.int64 10) (GValue.int64 0)] := by
  decide

/-- C9: for the geometry string `800x600+10+20`, on every screen,
`handle_geometry` emits a window-move event with `x = 10`, `y = 20` and neither
axis flipped, and a window-resize event with 800x600. -/
theorem geometry_full_string (host : Host) (mpv : GmpvMpv) :
    handle_geometry host { mpv with geometry := some "800x600+10+20".toList }
      = [Signal.window_move false false (GValue.int64 10) (GValue.int64 20),
         Signal.window_resize 800 600] := by
  rfl

/-- C10, as stated, fails: with the target `1920x1080` and a video of 854x480
the ratio is `min (1920/854, 1080/480) = 1920/854` and `trunc (r * 854)` is
1920, but `handle_autofit` outputs the width 1919: the quotient `1920.0/854.0`
is rounded down and its product with 854 is a `gdouble` below 1920. -/
theorem autofit_inexact :
    handle_autofit host0 { mpv0 with autofit := some "1920x1080".toList, dwidth := some 854 } (0, 0)
      = (1919, 1079) ∧
    ⌊min ((1920 : ℚ) / 854) ((1080 : ℚ) / 480) * 854⌋ = 1920 := by
  constructor
  · decide
  · have h : min ((1920 : ℚ) / 854) ((1080 : ℚ) / 480) = 1920 / 854 := min_eq_left (by norm_num)
    rw [h, Int.floor_eq_iff]
    norm_num

/-- C10, amended: when at least one of autofit, autofit-smaller and
autofit-larger is set and the video extent `(vw, vh)` is obtained, both
positive and below `2 ^ 19`, and the target clamped per axis into
`[floor, ceiling]` (defaults: target 0, floor 0, ceiling `G_MAXINT64`) is
`(cw, ch)`, not negative, then with `r = min (cw / vw, ch / vh)`
`handle_autofit` outputs, whatever dimensions are passed in, on each axis the
integer part of `r * vw` (of `r * vh`), or one less than it when that product
is a positive integer: the ratio and the products are computed in `gdouble`.
For the target `1280x720`, no floor or ceiling and a video of 640x480 the
output is `(960, 720)`. -/
theorem autofit_output (host : Host) (mpv : GmpvMpv) (dim : Int × Int) (vw vh cw ch : Nat)
    (hset : is_set mpv.autofit = true ∨ is_set mpv.autofit_larger = true ∨
      is_set mpv.autofit_smaller = true)
    (hdw : mpv.dwidth = some (vw : Int)) (hdh : mpv.dheight = some (vh : Int))
    (hvw0 : 0 < vw) (hvh0 : 0 < vh) (hvw : vw < 2 ^ 19) (hvh : vh < 2 ^ 19)
    (hcw : (cw : Int) = CLAMP (directive_dim host mpv.autofit (0, 0)).1
      (directive_dim host mpv.autofit_smaller (0, 0)).1
      (directive_dim host mpv.autofit_larger (G_MAXINT64, G_MAXINT64)).1)
    (hch : (ch : Int) = CLAMP (directive_dim host mpv.autofit (0, 0)).2
      (directive_dim host mpv.autofit_smaller (0, 0)).2
      (directive_dim host mpv.autofit_larger (G_MAXINT64, G_MAXINT64)).2)
    (hcw2 : cw < 2 ^ 31) (hch2 : ch < 2 ^ 31) :
    (∃ w h : Int, handle_autofit host mpv dim = (w, h) ∧
      (w = ⌊min ((cw : ℚ) / vw) ((ch : ℚ) / vh) * vw⌋ ∨
        (w = ⌊min ((cw : ℚ) / vw) ((ch : ℚ) / vh) * vw⌋ - 1 ∧
          0 < ⌊min ((cw : ℚ) / vw) ((ch : ℚ) / vh) * vw⌋ ∧
          ((⌊min ((cw : ℚ) / vw) ((ch : ℚ) / vh) * vw⌋ : Int) : ℚ)
            = min ((cw : ℚ) / vw) ((ch : ℚ) / vh) * vw)) ∧
      (h = ⌊min ((cw : ℚ) / vw) ((ch : ℚ) / vh) * vh⌋ ∨
        (h = ⌊min ((cw : ℚ) / vw) ((ch : ℚ) / vh) * vh⌋ - 1 ∧
          0 < ⌊min ((cw : ℚ) / vw) ((ch : ℚ) / vh) * vh⌋ ∧
          ((⌊min ((cw : ℚ) / vw) ((ch : ℚ) / vh) * vh⌋ : Int) : ℚ)
            = min ((cw : ℚ) / vw) ((ch : ℚ) / vh) * vh))) ∧
    handle_autofit host0 { mpv0 with autofit := some "1280x720".toList } dim = (960, 720) := by
  refine ⟨?_, rfl⟩
  have hcond : (is_set mpv.autofit || is_set mpv.autofit_larger || is_set mpv.autofit_smaller)
      = true := by
    rcases hset with h | h | h <;> simp [h]
  have hu1 : (1 : ℚ) / 2 ^ 53 ≤ 1 := by norm_num
  obtain ⟨qa, hqa, ea⟩ := quotient_val cw vw hcw2 hvw0 (by omega)
  obtain ⟨qb, hqb, eb⟩ := quotient_val ch vh hch2 hvh0 (by omega)
  obtain ⟨vr, hvr, er⟩ := min_val _ _ qa qb _ _ _ hqa hqb hu1 ea eb
  obtain ⟨x0, xz, x2⟩ := min_quotient_range cw vw ch vh hcw2 hvw0 hvh0 hvw hvh
  obtain ⟨Nw, Dw, hDw, hDw2, hTw, hNw⟩ := axis_fraction cw vw ch vh hvw0 hvh0 hvh
  obtain ⟨Nh, Dh, hDh, hDh2, hTh, hNh⟩ := axis_fraction ch vh cw vw hvh0 hvw0 hvw
  rw [min_comm] at hTh
  have hcq : (cw : ℚ) < 2 ^ 31 := by exact_mod_cast hcw2
  have hchq : (ch : ℚ) < 2 ^ 31 := by exact_mod_cast hch2
  have ow := scaled_output _ vr _ hvr x0 er vw Nw Dw hTw hDw hDw2 (by linarith) hvw0 hvw xz x2
  have oh := scaled_output _ vr _ hvr x0 er vh Nh Dh hTh hDh hDh2 (by linarith) hvh0 hvh xz x2
  refine ⟨_, _, ?_, ow, oh⟩
  unfold handle_autofit get_video_dimensions
  unfold directive_dim at hcw hch
  simp only [hcond, hdw, hdh, Option.isSome_some, Bool.and_self, if_true, Option.getD_some,
    ← hcw, ← hch, Bool.true_and]

theorem autofit_output_witness :
    (∃ w h : Int,
      handle_autofit host0 { mpv0 with autofit := some "1280x720".toList } (5, 7) = (w, h) ∧
      (w = ⌊min (((1280 : Nat) : ℚ) / (640 : Nat)) (((720 : Nat) : ℚ) / (480 : Nat)) * (640 : Nat)⌋ ∨
        (w = ⌊min (((1280 : Nat) : ℚ) / (640 : Nat)) (((720 : Nat) : ℚ) / (480 : Nat)) * (640 : Nat)⌋ - 1 ∧
          0 < ⌊min (((1280 : Nat) : ℚ) / (640 : Nat)) (((720 : Nat) : ℚ) / (480 : Nat)) * (640 : Nat)⌋ ∧
          ((⌊min (((1280 : Nat) : ℚ) / (640 : Nat)) (((720 : Nat) : ℚ) / (480 : Nat)) * (640 : Nat)⌋ : Int) : ℚ)
            = min (((1280 : Nat) : ℚ) / (640 : Nat)) (((720 : Nat) : ℚ) / (480 : Nat)) * (640 : Nat))) ∧
      (h = ⌊min (((1280 : Nat) : ℚ) / (640 : Nat)) (((720 : Nat) : ℚ) / (480 : Nat)) * (480 : Nat)⌋ ∨
        (h = ⌊min (((1280 : Nat) : ℚ) / (640 : Nat)) (((720 : Nat) : ℚ) / (480 : Nat)) * (480 : Nat)⌋ - 1 ∧
          0 < ⌊min (((1280 : Nat) : ℚ) / (640 : Nat)) (((720 : Nat) : ℚ) / (480 : Nat)) * (480 : Nat)⌋ ∧
          ((⌊min (((1280 : Nat) : ℚ) / (640 : Nat)) (((720 : Nat) : ℚ) / (480 : Nat)) * (480 : Nat)⌋ : Int) : ℚ)
            = min (((1280 : Nat) : ℚ) / (640 : Nat)) (((720 : Nat) : ℚ) / (480 : Nat)) * (480 : Nat)))) ∧
    handle_autofit host0 { mpv0 with autofit := some "1280x720".toList } (5, 7) = (960, 720) :=
  autofit_output host0 { mpv0 with autofit := some "1280x720".toList } (5, 7) 640 480 1280 720
    (Or.inl (by decide)) (by decide) (by decide) (by decide) (by decide) (by decide) (by decide)
    (by decide) (by decide) (by decide) (by decide)

/-! ## The output of `handle_autofit` against the shared ratio -/

/-- An integer that is the integer part of `X`, or one less when `X` is a
positive integer, lies in `[X - 1, X]`. -/
theorem near_floor_bounds (w : Int) (X : ℚ)
    (h : w = ⌊X⌋ ∨ (w = ⌊X⌋ - 1 ∧ 0 < ⌊X⌋ ∧ ((⌊X⌋ : Int) : ℚ) = X)) :
    X - 1 ≤ (w : ℚ) ∧ (w : ℚ) ≤ X ∧ (0 ≤ X → 0 ≤ w) := by
  have h1 : ((⌊X⌋ : Int) : ℚ) ≤ X := Int.floor_le X
  have h2 : X < ((⌊X⌋ : Int) : ℚ) + 1 := Int.lt_floor_add_one X
  rcases h with h | ⟨h, h4, h3⟩
  · subst h
    exact ⟨by linarith, h1, fun h0 => Int.floor_nonneg.mpr h0⟩
  · subst h
    refine ⟨?_, ?_, fun _ => by omega⟩
    · push_cast; linarith
    · push_cast; linarith

/-- The output of `handle_autofit` on a positive video extent: on each axis
within one pixel below the product of the shared ratio and the video extent. -/
theorem autofit_result (host : Host) (mpv : GmpvMpv) (dim : Int × Int) (vw vh cw ch : Nat)
    (hset : is_set mpv.autofit = true ∨ is_set mpv.autofit_larger = true ∨
      is_set mpv.autofit_smaller = true)
    (hdw : mpv.dwidth = some (vw : Int)) (hdh : mpv.dheight = some (vh : Int))
    (hvw0 : 0 < vw) (hvh0 : 0 < vh) (hvw : vw < 2 ^ 19) (hvh : vh < 2 ^ 19)
    (hcw : (cw : Int) = CLAMP (directive_dim host mpv.autofit (0, 0)).1
      (directive_dim host mpv.autofit_smaller (0, 0)).1
      (directive_dim host mpv.autofit_larger (G_MAXINT64, G_MAXINT64)).1)
    (hch : (ch : Int) = CLAMP (directive_dim host mpv.autofit (0, 0)).2
      (directive_dim host mpv.autofit_smaller (0, 0)).2
      (directive_dim host mpv.autofit_larger (G_MAXINT64, G_MAXINT64)).2)
    (hcw2 : cw < 2 ^ 31) (hch2 : ch < 2 ^ 31) :
    ∃ w h : Int, handle_autofit host mpv dim = (w, h) ∧ 0 ≤ w ∧ 0 ≤ h ∧
      min ((cw : ℚ) / vw) ((ch : ℚ) / vh) * vw - 1 ≤ (w : ℚ) ∧
      (w : ℚ) ≤ min ((cw : ℚ) / vw) ((ch : ℚ) / vh) * vw ∧
      min ((cw : ℚ) / vw) ((ch : ℚ) / vh) * vh - 1 ≤ (h : ℚ) ∧
      (h : ℚ) ≤ min ((cw : ℚ) / vw) ((ch : ℚ) / vh) * vh := by
  have hcond : (is_set mpv.autofit || is_set mpv.autofit_larger || is_set mpv.autofit_smaller)
      = true := by
    rcases hset with h | h | h <;> simp [h]
  have hu1 : (1 : ℚ) / 2 ^ 53 ≤ 1 := by norm_num
  obtain ⟨qa, hqa, ea⟩ := quotient_val cw vw hcw2 hvw0 (by omega)
  obtain ⟨qb, hqb, eb⟩ := quotient_val ch vh hch2 hvh0 (by omega)
  obtain ⟨vr, hvr, er⟩ := min_val _ _ qa qb _ _ _ hqa hqb hu1 ea eb
  obtain ⟨x0, xz, x2⟩ := min_quotient_range cw vw ch vh hcw2 hvw0 hvh0 hvw hvh
  obtain ⟨Nw, Dw, hDw, hDw2, hTw, hNw⟩ := axis_fraction cw vw ch vh hvw0 hvh0 hvh
  obtain ⟨Nh, Dh, hDh, hDh2, hTh, hNh⟩ := axis_fraction ch vh cw vw hvh0 hvw0 hvw
  rw [min_comm] at hTh
  have hcq : (cw : ℚ) < 2 ^ 31 := by exact_mod_cast hcw2
  have hchq : (ch : ℚ) < 2 ^ 31 := by exact_mod_cast hch2
  have ow := near_floor_bounds _ _
    (scaled_output _ vr _ hvr x0 er vw Nw Dw hTw hDw hDw2 (by linarith) hvw0 hvw xz x2)
  have oh := near_floor_bounds _ _
    (scaled_output _ vr _ hvr x0 er vh Nh Dh hTh hDh hDh2 (by linarith) hvh0 hvh xz x2)
  have hm : (0 : ℚ) ≤ min ((cw : ℚ) / vw) ((ch : ℚ) / vh) :=
    le_min (div_nonneg (Nat.cast_nonneg _) (Nat.cast_nonneg _))
      (div_nonneg (Nat.cast_nonneg _) (Nat.cast_nonneg _))
  refine ⟨_, _, ?_, ow.2.2 (mul_nonneg hm (Nat.cast_nonneg _)),
    oh.2.2 (mul_nonneg hm (Nat.cast_nonneg _)), ow.1, ow.2.1, oh.1, oh.2.1⟩
  unfold handle_autofit get_video_dimensions
  unfold directive_dim at hcw hch
  simp only [hcond, hdw, hdh, Option.isSome_some, Bool.and_self, if_true, Option.getD_some,
    ← hcw, ← hch, Bool.true_and]

/-- The macro `CLAMP` never exceeds the upper bound when the bounds are in order. -/
theorem CLAMP_le (x low high : Int) (h : low ≤ high) : CLAMP x low high ≤ high := by
  unfold CLAMP
  split_ifs <;> omega

/-- The product of the shared ratio and the extent of an axis is at most the
clamped target of that axis. -/
theorem min_mul_le (cw ch vw vh : Nat) (hvw0 : 0 < vw) (hvh0 : 0 < vh) :
    min ((cw : ℚ) / vw) ((ch : ℚ) / vh) * vw ≤ cw ∧
    min ((cw : ℚ) / vw) ((ch : ℚ) / vh) * vh ≤ ch := by
  have a : (0 : ℚ) < vw := by exact_mod_cast hvw0
  have b : (0 : ℚ) < vh := by exact_mod_cast hvh0
  constructor
  · calc min ((cw : ℚ) / vw) ((ch : ℚ) / vh) * vw ≤ (cw : ℚ) / vw * vw :=
          mul_le_mul_of_nonneg_right (min_le_left _ _) a.le
      _ = cw := by field_simp
  · calc min ((cw : ℚ) / vw) ((ch : ℚ) / vh) * vh ≤ (ch : ℚ) / vh * vh :=
          mul_le_mul_of_nonneg_right (min_le_right _ _) b.le
      _ = ch := by field_simp

/-! ## Digits consumed by `parse_geom_token` -/

/-- The conversion loop counts the digits of the run, overflow or not. -/
theorem parse_digits_count : ∀ (s : List Char) (ui64 : Nat) (overflow : Bool) (k acc : Nat),
    (parse_digits 10 s ui64 overflow k).2.2 = (digit_run 10 s acc k).2.1 := by
  intro s
  induction s with
  | nil => intro ui64 overflow k acc; rfl
  | cons c s ih =>
    intro ui64 overflow k acc
    unfold parse_digits digit_run
    cases hd : digit_value c with
    | none => rfl
    | some v =>
      simp only []
      by_cases hv : v < 10
      · rw [if_neg (by omega : ¬ 10 ≤ v), if_pos hv]
        split_ifs
        · exact ih _ _ _ _
        · exact ih _ _ _ _
      · rw [if_pos (by omega : 10 ≤ v), if_neg hv]

theorem drop_takeWhile_length (p : Char → Bool) : ∀ s : List Char,
    s.drop (s.takeWhile p).length = s.dropWhile p := by
  intro s
  induction s with
  | nil => rfl
  | cons c s ih =>
    by_cases h : p c = true
    · simp [List.takeWhile_cons, List.dropWhile_cons, h, ih]
    · simp [List.takeWhile_cons, List.dropWhile_cons, h]

/-- The end pointer of a decimal conversion is off the start exactly when a
digit was consumed. -/
theorem strtoll_end_off (iter : List Char) :
    (g_ascii_strtoll iter 10).2 = 0 ↔ digits_consumed iter = 0 := by
  have h1 : (g_ascii_strtoll iter 10).2 = (g_parse_long_long iter 10).end_off := by
    unfold g_ascii_strtoll
    simp only []
    split_ifs <;> rfl
  rw [h1]
  unfold g_parse_long_long digits_consumed
  rw [if_neg (by omega)]
  simp only []
  rw [drop_takeWhile_length]
  cases hs : iter.dropWhile ISSPACE with
  | nil => simp [digit_run]
  | cons c s =>
    have hhex : ∀ t : List Char, has_hex_prefix t 10 = false := by
      intro t
      unfold has_hex_prefix
      simp
    have hbase : ∀ t : List Char, effective_base t 10 = 10 := by
      intro t
      unfold effective_base
      rw [hhex]
      simp
    simp only [hhex, hbase, Bool.false_eq_true, if_false, List.drop_zero, add_zero,
      List.head?_cons, Option.some.injEq]
    have key : ∀ (neg : Bool) (save : Nat) (t : List Char),
        ((parse_long_finish neg false save (parse_digits 10 t 0 false 0)).end_off = 0 ↔
          (digit_run 10 t 0 0).2.1 = 0) := by
      intro neg save t
      unfold parse_long_finish
      rw [parse_digits_count t 0 false 0 0]
      by_cases hk : (digit_run 10 t 0 0).2.1 = 0
      · simp [hk]
      · simp only [hk, if_false, Bool.false_eq_true, iff_false]
        split_ifs <;> simp <;> omega
    by_cases hc : c = '-' ∨ c = '+'
    · simp only [if_pos hc]
      exact key _ _ _
    · simp only [if_neg hc, List.drop_zero]
      exact key _ _ _

/-! ## The product of `handle_window_scale` -/

/-- The conversion `(gint64)(scale * (gdouble) n)` for a scale that stands for
`v`: the integer part of a product within relative error `2 ^ -53` of
`v * n`. -/
theorem scale_axis (scale : GDouble) (v : ℚ) (n : Nat) (hv : GDouble.Val scale v)
    (hn : n < 2 ^ 31) (hlo : v = 0 ∨ (1 : ℚ) / 2 ^ 64 ≤ v) (hhi : v ≤ 2 ^ 31) :
    ∃ p : ℚ, GDouble.to_gint64 (GDouble.mul scale (GDouble.of_int (n : Int))) = ⌊p⌋ ∧
      |p - v * n| ≤ v * n / 2 ^ 53 := by
  have hv0 : 0 ≤ v := val_nonneg _ _ hv
  have hn0 : (0 : ℚ) ≤ n := Nat.cast_nonneg n
  have hnq : (n : ℚ) < 2 ^ 31 := by exact_mod_cast hn
  have hprod : v * n ≤ 2 ^ 62 := by
    calc v * n ≤ 2 ^ 31 * 2 ^ 31 := mul_le_mul hhi hnq.le hn0 (by norm_num)
      _ = 2 ^ 62 := by norm_num
  have hr : v * n = 0 ∨ ((2 : ℚ) ^ (-900 : Int) ≤ v * n ∧ v * n ≤ (2 : ℚ) ^ (900 : Int)) := by
    rcases Nat.eq_zero_or_pos n with h | h
    · left; simp [h]
    · rcases hlo with h0 | h0
      · left; simp [h0]
      · right
        have h1 : (1 : ℚ) ≤ n := by exact_mod_cast h
        have h2 : (1 : ℚ) / 2 ^ 64 ≤ v * n := by
          calc (1 : ℚ) / 2 ^ 64 ≤ v := h0
            _ = v * 1 := (mul_one v).symm
            _ ≤ v * n := mul_le_mul_of_nonneg_left h1 hv0
        have h3 := in_range (v * n) h2 (le_trans hprod (by norm_num))
        exact h3
  obtain ⟨p, hp, ep⟩ := mul_val scale (GDouble.of_int (n : Int)) v n hv
    (of_int_val n (by omega)) hr
  refine ⟨p, to_gint64_val _ p hp ?_, ep⟩
  have h4 : p - v * n ≤ v * n / 2 ^ 53 := (abs_le.mp ep).2
  have h5 : v * n / 2 ^ 53 ≤ 2 ^ 62 / 2 ^ 53 := by
    apply div_le_div_of_nonneg_right hprod (by norm_num)
  have h6 : (2 : ℚ) ^ 62 / 2 ^ 53 + 2 ^ 62 < 2 ^ 63 := by norm_num
  linarith

/-! ## Reads of `parse_dim_string` -/

/-- When the loop body does not get to the test for `%`, it changes nothing. -/
theorem dim_body_no_read (host : Host) (i : Nat) (tok : List Char) (st : DimState)
    (h : dim_body_index i tok = none) : dim_body host i tok st = st := by
  unfold dim_body_index at h
  unfold dim_body
  simp only [] at h ⊢
  split_ifs at h with hg
  rw [if_neg hg]

/-- A read within the token does not see the byte in front of it. -/
theorem dim_body_read_inside (sw sh : Int) (s1 s2 : Char) (i : Nat) (tok : List Char)
    (st : DimState) (k : Int) (h : dim_body_index i tok = some k) (hk : 0 ≤ k) :
    dim_body ⟨sw, sh, s1⟩ i tok st = dim_body ⟨sw, sh, s2⟩ i tok st := by
  unfold dim_body_index at h
  simp only [] at h
  split_ifs at h with hg
  simp only [Option.some.injEq] at h
  unfold dim_body char_at
  simp only [h, if_neg (not_lt.mpr hk)]

/-! ## The claims on the reconfiguration handlers and on the token parsers -/

/-- C11, as stated, fails: with the target `1000x1000` on a video of 640x360
`handle_autofit` outputs `(1000, 562)`: the shared ratio is `1000/640` and
`1000/640 * 360 = 562.5` is truncated, so `1000/640` is not `562/360`. -/
theorem autofit_ratio_not_uniform :
    handle_autofit host0
        { mpv0 with autofit := some "1000x1000".toList, dheight := some 360 } (0, 0)
      = (1000, 562) ∧ (1000 : ℚ) / 640 ≠ (562 : ℚ) / 360 := by
  constructor
  · decide
  · norm_num

/-- C11, amended: when at least one of autofit, autofit-smaller and
autofit-larger is set, the video extent `(vw, vh)` is obtained, both positive
and below `2 ^ 19`, and the target clamped per axis into `[floor, ceiling]` is
`(cw, ch)`, not negative, then with `r = min (cw / vw, ch / vh)` the output
`(w, h)` of `handle_autofit` has `r - 1 / vw ≤ w / vw ≤ r` and
`r - 1 / vh ≤ h / vh ≤ r`: the two ratios are equal up to the truncation to
whole pixels, they differ by at most `max (1 / vw, 1 / vh)`. -/
theorem autofit_ratio_near (host : Host) (mpv : GmpvMpv) (dim : Int × Int) (vw vh cw ch : Nat)
    (hset : is_set mpv.autofit = true ∨ is_set mpv.autofit_larger = true ∨
      is_set mpv.autofit_smaller = true)
    (hdw : mpv.dwidth = some (vw : Int)) (hdh : mpv.dheight = some (vh : Int))
    (hvw0 : 0 < vw) (hvh0 : 0 < vh) (hvw : vw < 2 ^ 19) (hvh : vh < 2 ^ 19)
    (hcw : (cw : Int) = CLAMP (directive_dim host mpv.autofit (0, 0)).1
      (directive_dim host mpv.autofit_smaller (0, 0)).1
      (directive_dim host mpv.autofit_larger (G_MAXINT64, G_MAXINT64)).1)
    (hch : (ch : Int) = CLAMP (directive_dim host mpv.autofit (0, 0)).2
      (directive_dim host mpv.autofit_smaller (0, 0)).2
      (directive_dim host mpv.autofit_larger (G_MAXINT64, G_MAXINT64)).2)
    (hcw2 : cw < 2 ^ 31) (hch2 : ch < 2 ^ 31) :
    ∃ w h : Int, handle_autofit host mpv dim = (w, h) ∧
      min ((cw : ℚ) / vw) ((ch : ℚ) / vh) - 1 / vw ≤ (w : ℚ) / vw ∧
      (w : ℚ) / vw ≤ min ((cw : ℚ) / vw) ((ch : ℚ) / vh) ∧
      min ((cw : ℚ) / vw) ((ch : ℚ) / vh) - 1 / vh ≤ (h : ℚ) / vh ∧
      (h : ℚ) / vh ≤ min ((cw : ℚ) / vw) ((ch : ℚ) / vh) ∧
      |(w : ℚ) / vw - (h : ℚ) / vh| ≤ max (1 / (vw : ℚ)) (1 / (vh : ℚ)) := by
  obtain ⟨w, h, e, w0, h0, w1, w2, h1, h2⟩ :=
    autofit_result host mpv dim vw vh cw ch hset hdw hdh hvw0 hvh0 hvw hvh hcw hch hcw2 hch2
  have a : (0 : ℚ) < vw := by exact_mod_cast hvw0
  have b : (0 : ℚ) < vh := by exact_mod_cast hvh0
  obtain ⟨r, hr⟩ : ∃ r : ℚ, min ((cw : ℚ) / vw) ((ch : ℚ) / vh) = r := ⟨_, rfl⟩
  rw [hr] at w1 w2 h1 h2 ⊢
  have A1 : r - 1 / vw ≤ (w : ℚ) / vw := by
    rw [le_div_iff₀ a]
    have : (r - 1 / (vw : ℚ)) * vw = r * vw - 1 := by field_simp
    linarith
  have A2 : (w : ℚ) / vw ≤ r := by rw [div_le_iff₀ a]; exact w2
  have B1 : r - 1 / vh ≤ (h : ℚ) / vh := by
    rw [le_div_iff₀ b]
    have : (r - 1 / (vh : ℚ)) * vh = r * vh - 1 := by field_simp
    linarith
  have B2 : (h : ℚ) / vh ≤ r := by rw [div_le_iff₀ b]; exact h2
  refine ⟨w, h, e, A1, A2, B1, B2, ?_⟩
  have m1 := le_max_left (1 / (vw : ℚ)) (1 / (vh : ℚ))
  have m2 := le_max_right (1 / (vw : ℚ)) (1 / (vh : ℚ))
  rw [abs_le]
  constructor <;> linarith

theorem autofit_ratio_near_witness :
    ∃ w h : Int, handle_autofit host0
        { mpv0 with autofit := some "1000x1000".toList, dheight := some 360 } (5, 7) = (w, h) ∧
      min (((1000 : Nat) : ℚ) / (640 : Nat)) (((1000 : Nat) : ℚ) / (360 : Nat)) - 1 / (640 : Nat)
        ≤ (w : ℚ) / (640 : Nat) ∧
      (w : ℚ) / (640 : Nat)
        ≤ min (((1000 : Nat) : ℚ) / (640 : Nat)) (((1000 : Nat) : ℚ) / (360 : Nat)) ∧
      min (((1000 : Nat) : ℚ) / (640 : Nat)) (((1000 : Nat) : ℚ) / (360 : Nat)) - 1 / (360 : Nat)
        ≤ (h : ℚ) / (360 : Nat) ∧
      (h : ℚ) / (360 : Nat)
        ≤ min (((1000 : Nat) : ℚ) / (640 : Nat)) (((1000 : Nat) : ℚ) / (360 : Nat)) ∧
      |(w : ℚ) / (640 : Nat) - (h : ℚ) / (360 : Nat)|
        ≤ max (1 / ((640 : Nat) : ℚ)) (1 / ((360 : Nat) : ℚ)) :=
  autofit_ratio_near host0 { mpv0 with autofit := some "1000x1000".toList, dheight := some 360 }
    (5, 7) 640 360 1000 1000
    (Or.inl (by decide)) (by decide) (by decide) (by decide) (by decide) (by decide) (by decide)
    (by decide) (by decide) (by decide) (by decide)

/-- C12, as stated, fails: with only the floor `800x600` set (the ceiling is
its default `G_MAXINT64`, so floor ≤ ceiling on both axes) and a video of
1920x1080, `handle_autofit` outputs `(800, 450)`: the height 450 is below the
floor 600. -/
theorem autofit_below_floor :
    handle_autofit host0
        { mpv0 with autofit_smaller := some "800x600".toList, dwidth := some 1920,
                    dheight := some 1080 } (0, 0) = (800, 450) ∧
    directive_dim host0 (some "800x600".toList) (0, 0) = (800, 600) ∧
    directive_dim host0 none (G_MAXINT64, G_MAXINT64) = (G_MAXINT64, G_MAXINT64) ∧
    (450 : Int) < 600 := by decide

/-- C12, amended: when at least one of autofit, autofit-smaller and
autofit-larger is set, the video extent `(vw, vh)` is obtained, both positive
and below `2 ^ 19`, the floor is at most the ceiling on both axes and the
target clamped per axis into `[floor, ceiling]` is `(cw, ch)`, not negative,
then on each axis the output of `handle_autofit` is not negative and is at
most the clamped target, hence at most the ceiling (autofit-larger) of that
axis.  Nothing is said of the floor: the shared ratio is the smaller of the
two, so the axis that does not decide it can end below its floor. -/
theorem autofit_within_ceiling (host : Host) (mpv : GmpvMpv) (dim : Int × Int)
    (vw vh cw ch : Nat)
    (hset : is_set mpv.autofit = true ∨ is_set mpv.autofit_larger = true ∨
      is_set mpv.autofit_smaller = true)
    (hdw : mpv.dwidth = some (vw : Int)) (hdh : mpv.dheight = some (vh : Int))
    (hvw0 : 0 < vw) (hvh0 : 0 < vh) (hvw : vw < 2 ^ 19) (hvh : vh < 2 ^ 19)
    (hcw : (cw : Int) = CLAMP (directive_dim host mpv.autofit (0, 0)).1
      (directive_dim host mpv.autofit_smaller (0, 0)).1
      (directive_dim host mpv.autofit_larger (G_MAXINT64, G_MAXINT64)).1)
    (hch : (ch : Int) = CLAMP (directive_dim host mpv.autofit (0, 0)).2
      (directive_dim host mpv.autofit_smaller (0, 0)).2
      (directive_dim host mpv.autofit_larger (G_MAXINT64, G_MAXINT64)).2)
    (hcw2 : cw < 2 ^ 31) (hch2 : ch < 2 ^ 31)
    (hfw : (directive_dim host mpv.autofit_smaller (0, 0)).1
      ≤ (directive_dim host mpv.autofit_larger (G_MAXINT64, G_MAXINT64)).1)
    (hfh : (directive_dim host mpv.autofit_smaller (0, 0)).2
      ≤ (directive_dim host mpv.autofit_larger (G_MAXINT64, G_MAXINT64)).2) :
    ∃ w h : Int, handle_autofit host mpv dim = (w, h) ∧
      0 ≤ w ∧ 0 ≤ h ∧ w ≤ cw ∧ h ≤ ch ∧
      w ≤ (directive_dim host mpv.autofit_larger (G_MAXINT64, G_MAXINT64)).1 ∧
      h ≤ (directive_dim host mpv.autofit_larger (G_MAXINT64, G_MAXINT64)).2 := by
  obtain ⟨w, h, e, w0, h0, w1, w2, h1, h2⟩ :=
    autofit_result host mpv dim vw vh cw ch hset hdw hdh hvw0 hvh0 hvw hvh hcw hch hcw2 hch2
  obtain ⟨m1, m2⟩ := min_mul_le cw ch vw vh hvw0 hvh0
  have wc : w ≤ (cw : Int) := by
    have : (w : ℚ) ≤ ((cw : Int) : ℚ) := by push_cast; linarith
    exact_mod_cast this
  have hc : h ≤ (ch : Int) := by
    have : (h : ℚ) ≤ ((ch : Int) : ℚ) := by push_cast; linarith
    exact_mod_cast this
  have cw1 := CLAMP_le (directive_dim host mpv.autofit (0, 0)).1 _ _ hfw
  have ch1 := CLAMP_le (directive_dim host mpv.autofit (0, 0)).2 _ _ hfh
  rw [← hcw] at cw1
  rw [← hch] at ch1
  exact ⟨w, h, e, w0, h0, wc, hc, le_trans wc cw1, le_trans hc ch1⟩

theorem autofit_within_ceiling_witness :
    ∃ w h : Int, handle_autofit host0
        { mpv0 with autofit_smaller := some "800x600".toList,
                    autofit_larger := some "1280x720".toList,
                    dwidth := some 1920, dheight := some 1080 } (5, 7) = (w, h) ∧
      0 ≤ w ∧ 0 ≤ h ∧ w ≤ ((800 : Nat) : Int) ∧ h ≤ ((600 : Nat) : Int) ∧
      w ≤ (directive_dim host0 (some "1280x720".toList) (G_MAXINT64, G_MAXINT64)).1 ∧
      h ≤ (directive_dim host0 (some "1280x720".toList) (G_MAXINT64, G_MAXINT64)).2 :=
  autofit_within_ceiling host0
    { mpv0 with autofit_smaller := some "800x600".toList,
                autofit_larger := some "1280x720".toList,
                dwidth := some 1920, dheight := some 1080 } (5, 7) 1920 1080 800 600
    (Or.inr (Or.inl (by decide))) (by decide) (by decide) (by decide) (by decide) (by decide)
    (by decide) (by decide) (by decide) (by decide) (by decide) (by decide) (by decide)

/-- C13: when none of autofit, autofit-smaller and autofit-larger is set (present
and not empty), or the video extent is not obtained, `handle_autofit` returns
the dimensions it was given, and `video_reconfig_handler` emits, for a new
file, the resize with the output of `handle_window_scale` when both its
dimensions are positive, and nothing otherwise. -/
theorem autofit_skipped (host : Host) (mpv : GmpvMpv) (dim : Int × Int)
    (h : (is_set mpv.autofit = false ∧ is_set mpv.autofit_smaller = false ∧
        is_set mpv.autofit_larger = false) ∨ (get_video_dimensions mpv (0, 0)).1 = false) :
    handle_autofit host mpv dim = dim ∧
    video_reconfig_handler host mpv =
      if mpv.new_file = true ∧ 0 < (handle_window_scale mpv (0, 0)).1 ∧
          0 < (handle_window_scale mpv (0, 0)).2
      then [Signal.window_resize (handle_window_scale mpv (0, 0)).1
        (handle_window_scale mpv (0, 0)).2]
      else [] := by
  have key : ∀ d : Int × Int, handle_autofit host mpv d = d := by
    intro d
    unfold handle_autofit
    rcases h with ⟨a, b, c⟩ | h
    · simp only [a, b, c, Bool.or_self, Bool.false_and, Bool.false_eq_true, if_false]
    · simp only [h, Bool.and_false, Bool.false_eq_true, if_false]
  refine ⟨key dim, ?_⟩
  unfold video_reconfig_handler
  rw [key]
  by_cases hn : mpv.new_file = true
  · simp [hn]
  · simp [hn]

theorem autofit_skipped_witness :
    handle_autofit host0 { mpv0 with window_scale := some "2.0".toList } (5, 7) = (5, 7) ∧
    video_reconfig_handler host0 { mpv0 with window_scale := some "2.0".toList } =
      if ({ mpv0 with window_scale := some "2.0".toList } : GmpvMpv).new_file = true ∧
          0 < (handle_window_scale { mpv0 with window_scale := some "2.0".toList } (0, 0)).1 ∧
          0 < (handle_window_scale { mpv0 with window_scale := some "2.0".toList } (0, 0)).2
      then [Signal.window_resize
        (handle_window_scale { mpv0 with window_scale := some "2.0".toList } (0, 0)).1
        (handle_window_scale { mpv0 with window_scale := some "2.0".toList } (0, 0)).2]
      else [] :=
  autofit_skipped host0 { mpv0 with window_scale := some "2.0".toList } (5, 7)
    (Or.inl (by decide))

/-- C14 fails in the code: the strings `70%` and `abc` make `parse_dim_string`
report failure, but `handle_autofit` does not look at the report.  With
autofit `70%` alone it outputs `(0, 0)` where an absent autofit leaves the
dimensions `(1280, 960)` as they are; with autofit `1280x720` and
autofit-larger `abc` it outputs `(-1, -1)` where an absent autofit-larger
gives `(960, 720)`; with autofit-smaller `abc` alone it outputs `(0, 0)` where
an absent autofit-smaller leaves `(1280, 960)`. -/
theorem autofit_failed_directive :
    (parse_dim_string host0 "70%".toList).1 = false ∧
    handle_autofit host0 { mpv0 with autofit := some "70%".toList } (1280, 960) = (0, 0) ∧
    handle_autofit host0 { mpv0 with autofit := none } (1280, 960) = (1280, 960) ∧
    (parse_dim_string host0 "abc".toList).1 = false ∧
    handle_autofit host0
      { mpv0 with autofit := some "1280x720".toList, autofit_larger := some "abc".toList } (5, 7)
      = (-1, -1) ∧
    handle_autofit host0 { mpv0 with autofit := some "1280x720".toList, autofit_larger := none }
      (5, 7) = (960, 720) ∧
    handle_autofit host0 { mpv0 with autofit_smaller := some "abc".toList } (1280, 960) = (0, 0) ∧
    handle_autofit host0 { mpv0 with autofit_smaller := none } (1280, 960) = (1280, 960) := by
  decide

/-- C15 fails in the code: a video extent reported as `(0, 0)` is obtained like
any other, and with autofit `1280x720` `handle_autofit` divides by the zero
width: `1280.0 / 0.0` is `+inf`, the ratio times `0.0` is a NaN, and the
dimensions `(5, 7)` passed in are replaced by the conversion of the NaN to
`gint64`. -/
theorem autofit_zero_video :
    get_video_dimensions { mpv0 with dwidth := some 0, dheight := some 0 } (0, 0)
      = (true, (0, 0)) ∧
    GDouble.div (GDouble.of_int 1280) (GDouble.of_int 0) = GDouble.inf false ∧
    GDouble.mul (GDouble.inf false) (GDouble.of_int 0) = GDouble.nan ∧
    handle_autofit host0
      { mpv0 with autofit := some "1280x720".toList, dwidth := some 0, dheight := some 0 } (5, 7)
      = (G_MININT64, G_MININT64) := by decide

/-- C16, as stated, fails: the factor `0.29` on a video of 100x100 gives
`(28, 28)` though `0.29 * 100 = 29`, since the `gdouble` nearest to `0.29` is
below it; and taking the factor to be that `gdouble`, `0.7` on 10x10 gives
`(7, 7)` though the `gdouble` of `0.7` is `6305039478318694 / 2 ^ 53 < 0.7`,
whose product with 10 has the integer part 6: the product is rounded to a
`gdouble` before it is truncated. -/
theorem window_scale_inexact :
    handle_window_scale
        { mpv0 with window_scale := some "0.29".toList, dwidth := some 100, dheight := some 100 }
        (0, 0) = (28, 28) ∧
    ⌊(29 : ℚ) / 100 * 100⌋ = 29 ∧
    handle_window_scale
        { mpv0 with window_scale := some "0.7".toList, dwidth := some 10, dheight := some 10 }
        (0, 0) = (7, 7) ∧
    g_ascii_strtod "0.7".toList = GDouble.finite 6305039478318694 (-53) ∧
    ⌊(6305039478318694 : ℚ) / 2 ^ 53 * 10⌋ = 6 := by
  refine ⟨by decide, ?_, by decide, by decide, ?_⟩
  · norm_num
  · rw [Int.floor_eq_iff]
    norm_num

/-- C16, amended: when the window-scale string is present and not empty, the
`gdouble` that `g_ascii_strtod` reads from it is finite and stands for the
rational `v`, zero or in `[2 ^ -64, 2 ^ 31]`, and the video extent `(vw, vh)`
is obtained, both below `2 ^ 31`, then `handle_window_scale` sets the
dimensions to the integer parts of two numbers `pw` and `ph` with
`|pw - v * vw| ≤ v * vw / 2 ^ 53` and `|ph - v * vh| ≤ v * vh / 2 ^ 53`, the
products as rounded to `gdouble`.  The factor `2.0` on 640x480 gives exactly
`(1280, 960)`; and when the factor is absent or empty, the dimensions passed
in are returned. -/
theorem window_scale_output (mpv : GmpvMpv) (dim : Int × Int) (str : List Char) (v : ℚ)
    (vw vh : Nat) (hstr : mpv.window_scale = some str) (hne : str ≠ [])
    (hv : GDouble.Val (g_ascii_strtod str) v)
    (hdw : mpv.dwidth = some (vw : Int)) (hdh : mpv.dheight = some (vh : Int))
    (hvw : vw < 2 ^ 31) (hvh : vh < 2 ^ 31)
    (hlo : v = 0 ∨ (1 : ℚ) / 2 ^ 64 ≤ v) (hhi : v ≤ 2 ^ 31) :
    (∃ pw ph : ℚ, handle_window_scale mpv dim = (⌊pw⌋, ⌊ph⌋) ∧
      |pw - v * vw| ≤ v * vw / 2 ^ 53 ∧ |ph - v * vh| ≤ v * vh / 2 ^ 53) ∧
    handle_window_scale { mpv0 with window_scale := some "2.0".toList } dim = (1280, 960) ∧
    (∀ m : GmpvMpv, is_set m.window_scale = false → handle_window_scale m dim = dim) := by
  refine ⟨?_, rfl, ?_⟩
  · obtain ⟨pw, ew, bw⟩ := scale_axis _ v vw hv hvw hlo hhi
    obtain ⟨ph, eh, bh⟩ := scale_axis _ v vh hv hvh hlo hhi
    refine ⟨pw, ph, ?_, bw, bh⟩
    have hs : is_set (some str) = true := by
      cases str with
      | nil => exact absurd rfl hne
      | cons c s => rfl
    unfold handle_window_scale get_video_dimensions
    simp only [hstr, hs, if_true, Option.getD_some, hdw, hdh, ew, eh]
  · intro m hm
    unfold handle_window_scale
    simp [hm]

theorem window_scale_output_witness :
    (∃ pw ph : ℚ, handle_window_scale { mpv0 with window_scale := some "2.0".toList } (5, 7)
        = (⌊pw⌋, ⌊ph⌋) ∧
      |pw - 2 * ((640 : Nat) : ℚ)| ≤ 2 * ((640 : Nat) : ℚ) / 2 ^ 53 ∧
      |ph - 2 * ((480 : Nat) : ℚ)| ≤ 2 * ((480 : Nat) : ℚ) / 2 ^ 53) ∧
    handle_window_scale { mpv0 with window_scale := some "2.0".toList } (5, 7) = (1280, 960) ∧
    (∀ m : GmpvMpv, is_set m.window_scale = false → handle_window_scale m (5, 7) = (5, 7)) :=
  window_scale_output { mpv0 with window_scale := some "2.0".toList } (5, 7) "2.0".toList 2
    640 480 rfl (by decide) ⟨4503599627370496, -51, by decide, by norm_num⟩ (by decide)
    (by decide) (by decide) (by decide) (Or.inr (by norm_num)) (by norm_num)

/-- C17: every window-resize that `handle_geometry` or `video_reconfig_handler`
emits carries a width and a height above 0, and `video_reconfig_handler`
emits the resize with the final dimensions (those `handle_autofit` returns for
the output of `handle_window_scale`) exactly when the file is new and both are
above 0, and emits nothing otherwise; e.g. the geometry `800x600` and the
window-scale `2.0` on a video of 640x480 make them emit the resizes 800x600
and 1280x960. -/
theorem resize_positive (host : Host) (mpv : GmpvMpv) :
    (∀ w h : Int, Signal.window_resize w h ∈ handle_geometry host mpv → 0 < w ∧ 0 < h) ∧
    (∀ w h : Int, Signal.window_resize w h ∈ video_reconfig_handler host mpv → 0 < w ∧ 0 < h) ∧
    (video_reconfig_handler host mpv =
        [Signal.window_resize (handle_autofit host mpv (handle_window_scale mpv (0, 0))).1
          (handle_autofit host mpv (handle_window_scale mpv (0, 0))).2] ↔
      (mpv.new_file = true ∧ 0 < (handle_autofit host mpv (handle_window_scale mpv (0, 0))).1 ∧
        0 < (handle_autofit host mpv (handle_window_scale mpv (0, 0))).2)) ∧
    (video_reconfig_handler host mpv = [] ↔
      ¬ (mpv.new_file = true ∧ 0 < (handle_autofit host mpv (handle_window_scale mpv (0, 0))).1 ∧
        0 < (handle_autofit host mpv (handle_window_scale mpv (0, 0))).2)) ∧
    handle_geometry host0 { mpv0 with geometry := some "800x600".toList }
      = [Signal.window_resize 800 600] ∧
    video_reconfig_handler host0 { mpv0 with window_scale := some "2.0".toList }
      = [Signal.window_resize 1280 960] := by
  refine ⟨?_, ?_, ?_, ?_, by decide, by decide⟩
  · intro w h hm
    unfold handle_geometry at hm
    cases hg : mpv.geometry with
    | none => rw [hg] at hm; simp at hm
    | some s =>
      rw [hg] at hm
      simp only [List.mem_append] at hm
      rcases hm with hm | hm
      · split_ifs at hm <;> simp at hm
      · split_ifs at hm with hp
        · simp only [List.mem_singleton, Signal.window_resize.injEq] at hm
          rw [hm.1, hm.2]
          exact hp
        · simp at hm
  · intro w h hm
    unfold video_reconfig_handler at hm
    simp only [] at hm
    by_cases hn : mpv.new_file = true
    · by_cases hp : 0 < (handle_autofit host mpv (handle_window_scale mpv (0, 0))).1 ∧
          0 < (handle_autofit host mpv (handle_window_scale mpv (0, 0))).2
      · rw [if_pos hn, if_pos hp] at hm
        simp only [List.mem_singleton, Signal.window_resize.injEq] at hm
        rw [hm.1, hm.2]
        exact hp
      · rw [if_pos hn, if_neg hp] at hm
        simp at hm
    · rw [if_neg hn] at hm
      simp at hm
  · unfold video_reconfig_handler
    simp only []
    by_cases hn : mpv.new_file = true
    · by_cases hp : 0 < (handle_autofit host mpv (handle_window_scale mpv (0, 0))).1 ∧
          0 < (handle_autofit host mpv (handle_window_scale mpv (0, 0))).2
      · rw [if_pos hn, if_pos hp]
        exact ⟨fun _ => ⟨hn, hp⟩, fun _ => rfl⟩
      · rw [if_pos hn, if_neg hp]
        exact ⟨fun e => (by cases e), fun q => absurd q.2 hp⟩
    · rw [if_neg hn]
      exact ⟨fun e => (by cases e), fun q => absurd q.1 hn⟩
  · unfold video_reconfig_handler
    simp only []
    by_cases hn : mpv.new_file = true
    · by_cases hp : 0 < (handle_autofit host mpv (handle_window_scale mpv (0, 0))).1 ∧
          0 < (handle_autofit host mpv (handle_window_scale mpv (0, 0))).2
      · rw [if_pos hn, if_pos hp]
        exact ⟨fun e => (by cases e), fun q => absurd ⟨hn, hp⟩ q⟩
      · rw [if_pos hn, if_neg hp]
        exact ⟨fun _ q => hp q.2, fun _ => rfl⟩
    · rw [if_neg hn]
      exact ⟨fun _ q => hn q.1, fun _ => rfl⟩

/-- C18, as stated, fails: on the bare `%` no digit is consumed and
`parse_geom_token` succeeds, with the value `0.0` taken as a fraction and the
cursor after the `%`. -/
theorem geom_token_bare_percent :
    parse_geom_token "%".toList = (true, [], GValue.double (GDouble.finite 0 0)) ∧
    digits_consumed "%".toList = 0 := by decide

/-- C18, amended: `parse_geom_token` succeeds exactly when at least one decimal
digit is consumed at the cursor (after optional white space and an optional
sign), or the cursor is on a `%`: the bare `%` is accepted as 0 percent. -/
theorem geom_token_succeeds_iff (iter : List Char) :
    (parse_geom_token iter).1 = true ↔ (0 < digits_consumed iter ∨ iter.head? = some '%') := by
  have h := strtoll_end_off iter
  unfold parse_geom_token
  simp only []
  by_cases h0 : (g_ascii_strtoll iter 10).2 = 0
  · have hd := h.mp h0
    rw [h0, List.drop_zero, hd]
    cases iter with
    | nil => simp
    | cons c s =>
      by_cases hc : c = '%'
      · subst hc; simp
      · simp [hc]
  · have hd : 0 < digits_consumed iter := Nat.pos_of_ne_zero (fun e => h0 (h.mpr e))
    simp only [hd, true_or, iff_true]
    split
    · simp
    · simp [h0]

/-- C19: with `n` the length of the leading run of `+` and `-` of the string,
`parse_pos_token_prefix` fails and leaves the cursor where it was when
`2 < n`; succeeds with the cursor at offset `n` when `n ≤ 1`; and when `n = 2`
succeeds with the cursor at offset 1, on the second sign character, which
`parse_geom_token` then reads as the sign of the number: `--10++20` is
accepted with x = -10 and y = 20. -/
theorem pos_prefix_algorithm (iter : List Char) :
    (2 < sign_run iter → parse_pos_token_prefix iter = (false, iter, none)) ∧
    (sign_run iter ≤ 1 → ( parse_pos_token_prefix iter).1 = true ∧
      ( parse_pos_token_prefix iter).2.1 = iter.drop (sign_run iter)) ∧
    (sign_run iter = 2 → ( parse_pos_token_prefix iter).1 = true ∧
      ( parse_pos_token_prefix iter).2.1 = iter.drop 1 ∧
      ∃ c, (( parse_pos_token_prefix iter).2.1).head? = some c ∧ is_sign c = true) ∧
    parse_pos_token_prefix "--10++20".toList = (true, "-10++20".toList, some "-".toList) ∧
    parse_geom_token "-10++20".toList = (true, "++20".toList, GValue.int64 (-10)) ∧
    parse_pos_string "--10++20".toList (false, false) (GValue.unset, GValue.unset)
      = (true, (true, false), (GValue.int64 (-10), GValue.int64 20)) := by
  refine ⟨?_, ?_, ?_, by decide, by decide, by decide⟩
  · intro h
    unfold sign_run at h
    unfold parse_pos_token_prefix
    simp only []
    rw [if_neg (by omega)]
  · intro h
    unfold sign_run at h ⊢
    unfold parse_pos_token_prefix
    simp only []
    rw [if_pos (by omega), if_neg (by omega)]
    exact ⟨rfl, rfl⟩
  · intro h
    unfold sign_run at h
    unfold parse_pos_token_prefix
    simp only []
    rw [if_pos (by omega), if_pos h, h]
    refine ⟨rfl, rfl, ?_⟩
    simp only []
    match iter, h with
    | [], h => simp at h
    | [a], h =>
      simp only [List.takeWhile] at h
      split at h <;> simp at h
    | a :: b :: s, h =>
      refine ⟨b, rfl, ?_⟩
      by_cases ha : is_sign a = true
      · by_cases hb : is_sign b = true
        · exact hb
        · simp [List.takeWhile, ha, hb] at h
      · simp [List.takeWhile, ha] at h

/-- C20 fails in the code: on `800x` and on `50%x` the height token is empty
and the test for `%` reads it at the index `strnlen - 1 = -1`, the byte in
front of the token; what `parse_dim_string` returns for `50%x` depends on
that byte. -/
theorem dim_string_reads_out_of_bounds :
    parse_dim_string_reads "800x".toList = [("800".toList, 2), ([], -1)] ∧
    (parse_dim_string_reads "800x".toList).all in_bounds = false ∧
    parse_dim_string_reads "50%x".toList = [("50%".toList, 2), ([], -1)] ∧
    (parse_dim_string_reads "50%x".toList).all in_bounds = false ∧
    parse_dim_string ⟨1920, 1080, '%'⟩ "50%x".toList = (false, (960, 0)) ∧
    parse_dim_string ⟨1920, 1080, '\x00'⟩ "50%x".toList = (true, (960, 540)) ∧
    (parse_dim_string_reads "800x600".toList).all in_bounds = true := by decide

end Gmpv
